import Mathlib

set_option linter.unusedSectionVars false
set_option linter.unusedVariables false

/-!
Verification of core algorithms of the `database-stream-processor` engine
against its specification.

The development shallowly embeds the Rust sources:

* `src/trace/layers/mod.rs` — the exponential-search `advance` routine;
* `src/trace/layers/ordered_leaf.rs` — `OrderedLeaf` tries and their
  merging builder (`push_merge`);
* `src/trace/ord/indexed_zset_batch.rs` — the indexed Z-set batch and its
  fueled `Merger`;
* `src/trace/spine_fueled.rs` — the fueled spine trace
  (`insert` / `exert` / `consolidate` and the internal level machinery);
* `src/operator/integrate.rs` — the scalar integration operator.

Vectors become lists, `usize`/`isize` become `Nat`/`Int`, panics become
`Option.none`, and loops become fuel-indexed or structural recursion with
lemmas showing the fuel suffices.
-/

namespace DBSP

/-! ## `advance` (src/trace/layers/mod.rs, lines 155-187)

`advance(slice, pred)` counts the elements of the maximal prefix satisfying
`pred`, assuming `pred` is monotone-false.  The source first checks index 8
(`small_limit`), then gallops upward (`step <<= step`), then refines downward
by halving steps.  We embed the index tests through `List.getElem?`. -/

/-- Boolean test of `f` at index `i` of `l`; `false` out of bounds.
Mirrors `function(&slice[i])` guarded by the bounds checks of the source. -/
def testAt (l : List α) (f : α → Bool) (i : Nat) : Bool :=
  match l[i]? with
  | some a => f a
  | none => false

/-- The ascending galloping loop of `advance`:
`while index + step < slice.len() && function(&slice[index + step])
 { index += step; step <<= step; }`.
`fuel` bounds the iteration count; `advance` passes `l.length`, which the
spec lemmas show is always sufficient. -/
def gallop (t : Nat → Bool) (len : Nat) : Nat → Nat → Nat → Nat × Nat
  | 0, index, step => (index, step)
  | fuel + 1, index, step =>
    if index + step < len ∧ t (index + step) = true then
      gallop t len fuel (index + step) (step <<< step)
    else
      (index, step)

/-- The descending refinement loop of `advance`:
`while step > 0 { if ok(index + step) { index += step }; step >>= 1 }`.
`fuel` bounds the iteration count; the caller passes the initial `step`,
which dominates the number of halvings. -/
def shrink (t : Nat → Bool) (len : Nat) : Nat → Nat → Nat → Nat
  | 0, index, _ => index
  | fuel + 1, index, step =>
    if step = 0 then index
    else
      shrink t len fuel
        (if index + step < len ∧ t (index + step) = true then index + step else index)
        (step >>> 1)

/-- `advance` from src/trace/layers/mod.rs: count the prefix of `l`
satisfying `f`, by exponential search when the count exceeds 8
(`small_limit`; the source binds `index = 9 = small_limit + 1` before the
galloping phase). -/
def advance (l : List α) (f : α → Bool) : Nat :=
  if 8 < l.length ∧ testAt l f 8 = true then
    if 9 < l.length ∧ testAt l f 9 = true then
      shrink (testAt l f) l.length
        (gallop (testAt l f) l.length l.length 9 1).2
        (gallop (testAt l f) l.length l.length 9 1).1
        ((gallop (testAt l f) l.length l.length 9 1).2 >>> 1) + 1
    else 9
  else ((l.take (min l.length 8)).filter f).length

/-- The monotone-false hypothesis of the spec: once `f` is false at an
index of `l` it stays false at all later indices (stated contrapositively). -/
def MonoFalse (l : List α) (f : α → Bool) : Prop :=
  ∀ i j : Nat, i ≤ j → testAt l f j = true → testAt l f i = true

theorem testAt_oob (l : List α) (f : α → Bool) {j : Nat} (hj : l.length ≤ j) :
    testAt l f j = false := by
  simp [testAt, List.getElem?_eq_none hj]

theorem takeWhile_len_le (l : List α) (f : α → Bool) :
    (l.takeWhile f).length ≤ l.length := by
  induction l with
  | nil => simp
  | cons a tl ih =>
    by_cases h : f a
    · simpa [List.takeWhile_cons, h] using Nat.succ_le_succ ih
    · simp [List.takeWhile_cons, h]

theorem monoFalse_tail {a : α} {tl : List α} {f : α → Bool}
    (h : MonoFalse (a :: tl) f) : MonoFalse tl f := by
  intro i j hij hj
  have := h (i + 1) (j + 1) (by omega)
  simp only [testAt, List.getElem?_cons_succ] at this
  exact this hj

/-- Under the monotone-false hypothesis, `f` holds at index `i` exactly when
`i` lies inside the maximal true prefix. -/
theorem testAt_iff_lt {l : List α} {f : α → Bool} (h : MonoFalse l f) :
    ∀ i, testAt l f i = true ↔ i < (l.takeWhile f).length := by
  induction l with
  | nil => intro i; simp [testAt]
  | cons a tl ih =>
    intro i
    by_cases ha : f a
    · cases i with
      | zero => simp [testAt, List.takeWhile_cons, ha]
      | succ n =>
        have := ih (monoFalse_tail h) n
        simp only [testAt, List.getElem?_cons_succ] at this ⊢
        simp [List.takeWhile_cons, ha, this, Nat.succ_lt_succ_iff]
    · cases i with
      | zero => simp [testAt, List.takeWhile_cons, ha]
      | succ n =>
        constructor
        · intro hn
          have h0 := h 0 (n + 1) (by omega) hn
          simp [testAt, ha] at h0
        · intro hlt; simp [List.takeWhile_cons, ha] at hlt

theorem gallop_spec {l : List α} {f : α → Bool} (h : MonoFalse l f) :
    ∀ (fuel index step e : Nat), step = 2 ^ e →
      l.length ≤ index + fuel →
      index < (l.takeWhile f).length →
      (gallop (testAt l f) l.length fuel index step).1 < (l.takeWhile f).length ∧
      (l.takeWhile f).length ≤
        (gallop (testAt l f) l.length fuel index step).1 +
        (gallop (testAt l f) l.length fuel index step).2 ∧
      ∃ e', (gallop (testAt l f) l.length fuel index step).2 = 2 ^ e' := by
  intro fuel
  induction fuel with
  | zero =>
    intro index step e hstep hfuel hidx
    have hc := takeWhile_len_le l f
    omega
  | succ n ih =>
    intro index step e hstep hfuel hidx
    have hc := takeWhile_len_le l f
    by_cases hcond : index + step < l.length ∧ testAt l f (index + step) = true
    · rw [gallop, if_pos hcond]
      have hlt : index + step < (l.takeWhile f).length :=
        (testAt_iff_lt h _).1 hcond.2
      have hpos : 0 < step := by
        rw [hstep]; exact Nat.pos_pow_of_pos e (by omega)
      refine ih (index + step) (step <<< step) (e + step) ?_ (by omega) hlt
      rw [Nat.shiftLeft_eq, hstep, ← pow_add]
    · rw [gallop, if_neg hcond]
      refine ⟨hidx, ?_, e, hstep⟩
      rcases Nat.lt_or_ge (index + step) l.length with hin | hout
      · have hnt : testAt l f (index + step) ≠ true := fun ht => hcond ⟨hin, ht⟩
        have : ¬ index + step < (l.takeWhile f).length := fun hlt =>
          hnt ((testAt_iff_lt h _).2 hlt)
        omega
      · omega

theorem shrink_spec {l : List α} {f : α → Bool} (h : MonoFalse l f) :
    ∀ (e fuel index : Nat), 2 ^ e ≤ fuel →
      index < (l.takeWhile f).length →
      (l.takeWhile f).length ≤ index + 2 ^ (e + 1) →
      shrink (testAt l f) l.length fuel index (2 ^ e) =
        (l.takeWhile f).length - 1 := by
  intro e
  induction e with
  | zero =>
    intro fuel index hfuel hidx hub
    have hc := takeWhile_len_le l f
    match fuel, hfuel with
    | fuel + 1, _ =>
      rw [shrink, if_neg (by norm_num)]
      have hcond : (index + 2 ^ 0 < l.length ∧ testAt l f (index + 2 ^ 0) = true) ↔
          index + 1 < (l.takeWhile f).length := by
        constructor
        · intro ⟨_, ht⟩; simpa using (testAt_iff_lt h _).1 ht
        · intro hlt
          exact ⟨by omega, (testAt_iff_lt h _).2 (by simpa using hlt)⟩
      have hz : (2 : Nat) ^ 0 >>> 1 = 0 := by decide
      by_cases hlt : index + 1 < (l.takeWhile f).length
      · rw [if_pos (hcond.2 hlt), hz]
        cases fuel with
        | zero => simp only [shrink]; omega
        | succ m => rw [shrink, if_pos rfl]; omega
      · rw [if_neg (fun hcc => hlt (hcond.1 hcc)), hz]
        cases fuel with
        | zero => simp only [shrink]; omega
        | succ m => rw [shrink, if_pos rfl]; omega
  | succ e ih =>
    intro fuel index hfuel hidx hub
    have hc := takeWhile_len_le l f
    have hppos : 0 < 2 ^ (e + 1) := Nat.pos_pow_of_pos _ (by omega)
    match fuel, Nat.le_trans hppos hfuel with
    | fuel + 1, _ =>
      rw [shrink, if_neg (by positivity)]
      have hhalf : (2 : Nat) ^ (e + 1) >>> 1 = 2 ^ e := by
        rw [Nat.shiftRight_succ, Nat.shiftRight_zero, pow_succ]
        omega
      have hfuel' : 2 ^ e ≤ fuel := by
        have h2 : 2 ^ e + 2 ^ e ≤ fuel + 1 := by
          have := pow_succ 2 e
          have : 2 ^ (e + 1) = 2 ^ e * 2 := pow_succ 2 e
          omega
        have he : 0 < 2 ^ e := Nat.pos_pow_of_pos _ (by omega)
        omega
      by_cases hlt : index + 2 ^ (e + 1) < (l.takeWhile f).length
      · rw [if_pos ⟨by omega, (testAt_iff_lt h _).2 hlt⟩, hhalf]
        refine ih fuel (index + 2 ^ (e + 1)) hfuel' hlt ?_
        have : 2 ^ (e + 1 + 1) = 2 ^ (e + 1) * 2 := pow_succ 2 (e + 1)
        have : 2 ^ (e + 1) = 2 ^ e * 2 := pow_succ 2 e
        omega
      · have hnot : ¬(index + 2 ^ (e + 1) < l.length ∧
            testAt l f (index + 2 ^ (e + 1)) = true) := by
          intro ⟨_, ht⟩
          exact hlt ((testAt_iff_lt h _).1 ht)
        rw [if_neg hnot, hhalf]
        refine ih fuel index hfuel' hidx ?_
        have : 2 ^ (e + 1) = 2 ^ e * 2 := pow_succ 2 e
        omega

theorem filter_take_len {l : List α} {f : α → Bool} (h : MonoFalse l f) :
    ∀ n, ((l.take n).filter f).length = min (l.takeWhile f).length n := by
  induction l with
  | nil => intro n; simp
  | cons a tl ih =>
    intro n
    cases n with
    | zero => simp
    | succ m =>
      by_cases ha : f a
      · have h1 : (((a :: tl).take (m + 1)).filter f).length =
            ((tl.take m).filter f).length + 1 := by
          simp [List.filter_cons, ha]
        have h2 : ((a :: tl).takeWhile f).length = (tl.takeWhile f).length + 1 := by
          simp [List.takeWhile_cons, ha]
        have h3 := ih (monoFalse_tail h) m
        rw [h1, h2, h3]
        omega
      · have htl : (tl.takeWhile f).length = 0 := by
          by_contra hne
          have hpos : 0 < (tl.takeWhile f).length := Nat.pos_of_ne_zero hne
          have := h 0 1 (by omega)
            (by
              have := (testAt_iff_lt (monoFalse_tail h) 0).2 hpos
              simpa [testAt] using this)
          simp [testAt, ha] at this
        have htl' : ((tl.take m).filter f).length = 0 := by
          have := ih (monoFalse_tail h) m
          omega
        have h1 : (((a :: tl).take (m + 1)).filter f).length =
            ((tl.take m).filter f).length := by
          simp [List.take_succ_cons, List.filter_cons, ha]
        have h2 : ((a :: tl).takeWhile f).length = 0 := by
          simp [List.takeWhile_cons, ha]
        rw [h1, htl', h2]
        simp

/-- **Specification of `advance`** (§4.1, property 4 of §8 of the spec):
under the monotone-false hypothesis, `advance` returns the length of the
maximal prefix satisfying the predicate. -/
theorem advance_spec {l : List α} {f : α → Bool} (h : MonoFalse l f) :
    advance l f = (l.takeWhile f).length := by
  have hc := takeWhile_len_le l f
  unfold advance
  by_cases h8 : 8 < l.length ∧ testAt l f 8 = true
  · rw [if_pos h8]
    have h8c : 8 < (l.takeWhile f).length := (testAt_iff_lt h 8).1 h8.2
    by_cases h9 : 9 < l.length ∧ testAt l f 9 = true
    · rw [if_pos h9]
      have h9c : 9 < (l.takeWhile f).length := (testAt_iff_lt h 9).1 h9.2
      obtain ⟨hg1, hg2, e', hg3⟩ :=
        gallop_spec h l.length 9 1 0 (by norm_num) (by omega) h9c
      cases e' with
      | zero =>
        rw [hg3]
        have hz : (2 : Nat) ^ 0 >>> 1 = 0 := by decide
        rw [hz]
        have hs : ∀ fuel idx, shrink (testAt l f) l.length fuel idx 0 = idx := by
          intro fuel idx
          cases fuel with
          | zero => simp [shrink]
          | succ m => rw [shrink, if_pos rfl]
        rw [hs]
        rw [hg3] at hg2; norm_num at hg2
        omega
      | succ e =>
        rw [hg3]
        have hhalf : (2 : Nat) ^ (e + 1) >>> 1 = 2 ^ e := by
          rw [Nat.shiftRight_succ, Nat.shiftRight_zero, pow_succ]
          omega
        rw [hhalf]
        rw [hg3] at hg2
        have := shrink_spec h e (2 ^ (e + 1))
          (gallop (testAt l f) l.length l.length 9 1).1
          (Nat.pow_le_pow_right (by omega) (by omega)) hg1 (by omega)
        rw [this]
        omega
    · rw [if_neg h9]
      rcases Nat.lt_or_ge 9 l.length with hin | hout
      · have hnt : testAt l f 9 ≠ true := fun ht => h9 ⟨hin, ht⟩
        have h9c : ¬ 9 < (l.takeWhile f).length := by
          intro hlt; exact hnt ((testAt_iff_lt h 9).2 hlt)
        omega
      · omega
  · rw [if_neg h8]
    rw [filter_take_len h]
    rcases Nat.lt_or_ge 8 l.length with hin | hout
    · have ht8 : testAt l f 8 ≠ true := fun ht => h8 ⟨hin, ht⟩
      have : ¬ 8 < (l.takeWhile f).length := by
        intro hlt; exact ht8 ((testAt_iff_lt h 8).2 hlt)
      omega
    · omega

/-- **C2.** For every slice and every predicate `pred` that is monotone-false
on that slice, `advance(slice, pred)` returns exactly the length of the
maximal prefix on which `pred` holds, i.e.
`slice.iter().take_while(pred).count()`. -/
theorem claim_C2_advance_takeWhile (l : List Nat) (f : Nat → Bool)
    (h : MonoFalse l f) :
    advance l f = (l.takeWhile f).length :=
  advance_spec h

/-- Witness for C2 at a concrete slice (long enough to exercise the
galloping path) and a concrete monotone-false predicate. -/
theorem claim_C2_witness :
    MonoFalse [0, 1, 2, 3, 4, 5, 6, 7, 8, 9, 10, 11, 12] (fun x => x < 11) ∧
      advance [0, 1, 2, 3, 4, 5, 6, 7, 8, 9, 10, 11, 12] (fun x => x < 11) =
      ([0, 1, 2, 3, 4, 5, 6, 7, 8, 9, 10, 11, 12].takeWhile
        (fun x => x < 11)).length := by
  have hm : MonoFalse [0, 1, 2, 3, 4, 5, 6, 7, 8, 9, 10, 11, 12]
      (fun x => x < 11) := by
    intro i j hij hj
    have hjlt : j < 13 := by
      by_contra hge
      rw [testAt_oob _ _ (by simp; omega)] at hj
      exact Bool.false_ne_true hj
    interval_cases j <;> interval_cases i <;> revert hj <;> decide
  exact ⟨hm, claim_C2_advance_takeWhile _ _ hm⟩

end DBSP

namespace DBSP

/-! ## `OrderedLeaf` and its merging builder
(src/trace/layers/ordered_leaf.rs)

An `OrderedLeaf<K, R>` stores `vals: Vec<(K, R)>`; we embed it as a list of
pairs.  `OrderedLeafBuilder::push_merge` (lines 222-289) merges two leaves:
runs of keys smaller than the other side's current key are located with
`advance`, capped at 1000, and copied wholesale; equal keys have their
weights added, dropping the tuple when the sum is zero. -/

variable {K : Type} [LinearOrder K] {R : Type} [AddCommGroup R] [DecidableEq R]

/-- `OrderedLeafBuilder::push_merge` on full cursors, embedded structurally:
the two index ranges of the source become list suffixes.  `fuel` bounds the
loop; `pushMerge` passes the sum of the lengths, which dominates the
iteration count because every branch consumes at least one element. -/
def pushMergeFuel : Nat → List (K × R) → List (K × R) → List (K × R)
  | 0, _, _ => []
  | _ + 1, [], l2 => l2
  | _ + 1, (p1 :: t1), [] => p1 :: t1
  | fuel + 1, (p1 :: t1), (p2 :: t2) =>
    if p1.1 < p2.1 then
      let step := min (1 + advance t1 (fun x => decide (x.1 < p2.1))) 1000
      ((p1 :: t1).take step) ++ pushMergeFuel fuel ((p1 :: t1).drop step) (p2 :: t2)
    else if p1.1 = p2.1 then
      (if p1.2 + p2.2 = 0 then [] else [(p1.1, p1.2 + p2.2)]) ++
        pushMergeFuel fuel t1 t2
    else
      let step := min (1 + advance t2 (fun x => decide (x.1 < p1.1))) 1000
      ((p2 :: t2).take step) ++ pushMergeFuel fuel ((p1 :: t1)) ((p2 :: t2).drop step)

/-- `push_merge` over the full cursors of both inputs, as called by
`Trie::merge` (src/trace/layers/mod.rs lines 56-61). -/
def pushMerge (l1 l2 : List (K × R)) : List (K × R) :=
  pushMergeFuel (l1.length + l2.length) l1 l2

/-- `Trie::merge`: a fresh `MergeBuilder`, one `push_merge`, then `done`. -/
def leafMerge (l1 l2 : List (K × R)) : List (K × R) :=
  pushMerge l1 l2

/-- The reference one-element-at-a-time ordered merge with cancellation;
the spec's merge algorithm (§4.2) specialised to leaves. -/
def mergeSimple : List (K × R) → List (K × R) → List (K × R)
  | [], l2 => l2
  | (p1 :: t1), [] => p1 :: t1
  | (p1 :: t1), (p2 :: t2) =>
    if p1.1 < p2.1 then
      p1 :: mergeSimple t1 (p2 :: t2)
    else if p1.1 = p2.1 then
      (if p1.2 + p2.2 = 0 then [] else [(p1.1, p1.2 + p2.2)]) ++ mergeSimple t1 t2
    else
      p2 :: mergeSimple (p1 :: t1) t2
  termination_by l1 l2 => l1.length + l2.length

/-- The keys of a leaf. -/
def keysOf (l : List (K × R)) : List K := l.map Prod.fst

/-- A leaf is well formed when its keys are strictly ascending and no entry
carries weight zero (§3 of the spec). -/
def WfLeaf (l : List (K × R)) : Prop :=
  (keysOf l).Sorted (· < ·) ∧ ∀ p ∈ l, p.2 ≠ 0

end DBSP

namespace DBSP

variable {K : Type} [LinearOrder K] {R : Type} [AddCommGroup R] [DecidableEq R]

theorem testAt_true_iff (l : List α) (f : α → Bool) (i : Nat) :
    testAt l f i = true ↔ ∃ h : i < l.length, f (l.get ⟨i, h⟩) = true := by
  unfold testAt
  rcases Nat.lt_or_ge i l.length with h | h
  · rw [List.getElem?_eq_getElem h]
    constructor
    · intro hf
      exact ⟨h, by simpa [List.get_eq_getElem] using hf⟩
    · intro ⟨h2, hf⟩
      simpa [List.get_eq_getElem] using hf
  · rw [List.getElem?_eq_none h]
    constructor
    · intro hf; cases hf
    · intro ⟨h2, _⟩; omega

/-- Strictly ascending keys make the run predicate of `push_merge`
monotone-false, as `advance` requires. -/
theorem monoFalse_of_sorted {l : List (K × R)} {k : K}
    (hs : (keysOf l).Sorted (· < ·)) :
    MonoFalse l (fun x => decide (x.1 < k)) := by
  intro i j hij hj
  obtain ⟨hjl, hjk⟩ := (testAt_true_iff _ _ _).1 hj
  have hklen : (keysOf l).length = l.length := by simp [keysOf]
  refine (testAt_true_iff _ _ _).2 ⟨by omega, ?_⟩
  simp only [decide_eq_true_eq] at hjk ⊢
  rcases eq_or_lt_of_le hij with rfl | hlt
  · exact hjk
  · have hmap : ∀ (m : Nat) (hm : m < l.length),
        (keysOf l).get ⟨m, by simpa [keysOf] using hm⟩ = (l.get ⟨m, hm⟩).1 := by
      intro m hm
      simp [keysOf, List.get_eq_getElem]
    have hsm := hs.get_strictMono
      (show (⟨i, by omega⟩ : Fin (keysOf l).length) < ⟨j, by omega⟩ from hlt)
    rw [hmap i (by omega), hmap j hjl] at hsm
    exact lt_trans hsm hjk

/-- Every element of a prefix found by `advance` with the run predicate has
key below `k`. -/
theorem take_advance_lt {l : List (K × R)} {k : K} {s : Nat}
    (hs : (keysOf l).Sorted (· < ·))
    (hle : s ≤ (l.takeWhile (fun x => decide (x.1 < k))).length) :
    ∀ q ∈ l.take s, q.1 < k := by
  intro q hq
  obtain ⟨i, hi, rfl⟩ := List.getElem_of_mem hq
  rw [List.getElem_take] at *
  have hil : i < l.length := by
    have := List.length_take s l
    omega
  have : testAt l (fun x => decide (x.1 < k)) i = true := by
    refine (testAt_iff_lt (monoFalse_of_sorted hs) i).2 ?_
    have := List.length_take s l
    omega
  obtain ⟨h1, h2⟩ := (testAt_true_iff _ _ _).1 this
  simpa [List.get_eq_getElem] using h2

/-- Copying a run of keys below the head of the right side commutes with the
reference merge. -/
theorem mergeSimple_copyRun (p2 : K × R) (t2 : List (K × R)) :
    ∀ (n : Nat) (l1 : List (K × R)), (∀ q ∈ l1.take n, q.1 < p2.1) →
      mergeSimple l1 (p2 :: t2) = l1.take n ++ mergeSimple (l1.drop n) (p2 :: t2) := by
  intro n
  induction n with
  | zero => intro l1 _; simp
  | succ m ih =>
    intro l1 hall
    cases l1 with
    | nil => simp
    | cons q t =>
      have hq : q.1 < p2.1 := hall q (by simp)
      rw [mergeSimple, if_pos hq]
      have := ih t (fun x hx => hall x (by simp [hx]))
      rw [this]
      simp

/-- Symmetric version: copying a run from the right side. -/
theorem mergeSimple_copyRun2 (p1 : K × R) (t1 : List (K × R)) :
    ∀ (n : Nat) (l2 : List (K × R)), (∀ q ∈ l2.take n, q.1 < p1.1) →
      mergeSimple (p1 :: t1) l2 = l2.take n ++ mergeSimple (p1 :: t1) (l2.drop n) := by
  intro n
  induction n with
  | zero => intro l2 _; simp
  | succ m ih =>
    intro l2 hall
    cases l2 with
    | nil => simp
    | cons q t =>
      have hq : q.1 < p1.1 := hall q (by simp)
      rw [mergeSimple, if_neg (by exact fun hlt => absurd (lt_trans hq hlt) (lt_irrefl _)),
        if_neg (by exact fun heq => absurd (heq ▸ hq) (lt_irrefl _))]
      have := ih t (fun x hx => hall x (by simp [hx]))
      rw [this]
      simp

theorem keysOf_sorted_tail {p : K × R} {t : List (K × R)}
    (h : (keysOf (p :: t)).Sorted (· < ·)) : (keysOf t).Sorted (· < ·) := by
  simp only [keysOf, List.map_cons] at h
  exact h.of_cons

theorem keysOf_sorted_drop {l : List (K × R)} (n : Nat)
    (h : (keysOf l).Sorted (· < ·)) : (keysOf (l.drop n)).Sorted (· < ·) := by
  have : keysOf (l.drop n) = (keysOf l).drop n := by simp [keysOf, List.map_drop]
  rw [this]
  exact h.sublist (List.drop_sublist n (keysOf l))

/-- With sorted inputs and sufficient fuel, the galloping `push_merge` loop
computes the reference merge. -/
theorem pushMergeFuel_eq_mergeSimple :
    ∀ (fuel : Nat) (l1 l2 : List (K × R)),
      l1.length + l2.length ≤ fuel →
      (keysOf l1).Sorted (· < ·) → (keysOf l2).Sorted (· < ·) →
      pushMergeFuel fuel l1 l2 = mergeSimple l1 l2 := by
  intro fuel
  induction fuel with
  | zero =>
    intro l1 l2 hlen _ _
    have h1 : l1 = [] := by
      cases l1 with
      | nil => rfl
      | cons a t => simp at hlen
    have h2 : l2 = [] := by
      cases l2 with
      | nil => rfl
      | cons a t => rw [h1] at hlen; simp at hlen
    subst h1; subst h2
    simp [pushMergeFuel, mergeSimple]
  | succ n ih =>
    intro l1 l2 hlen hs1 hs2
    cases l1 with
    | nil => simp [pushMergeFuel, mergeSimple]
    | cons p1 t1 =>
      cases l2 with
      | nil => simp [pushMergeFuel, mergeSimple]
      | cons p2 t2 =>
        by_cases hlt : p1.1 < p2.1
        · rw [pushMergeFuel, if_pos hlt]
          have hadv : advance t1 (fun x => decide (x.1 < p2.1)) =
              (t1.takeWhile (fun x => decide (x.1 < p2.1))).length :=
            advance_spec (monoFalse_of_sorted (keysOf_sorted_tail hs1))
          set s := min (1 + advance t1 (fun x => decide (x.1 < p2.1))) 1000 with hsdef
          have hs1' : 1 ≤ s := by
            rw [hsdef]; omega
          have hall : ∀ q ∈ (p1 :: t1).take s, q.1 < p2.1 := by
            intro q hq
            match s, hs1' with
            | s' + 1, _ =>
              rw [List.take_succ_cons] at hq
              rcases List.mem_cons.1 hq with rfl | hq'
              · exact hlt
              · refine take_advance_lt (keysOf_sorted_tail hs1) ?_ q hq'
                rw [← hadv]
                omega
          rw [mergeSimple_copyRun p2 t2 s (p1 :: t1) hall]
          show List.take s (p1 :: t1) ++ pushMergeFuel n (List.drop s (p1 :: t1)) (p2 :: t2) =
            List.take s (p1 :: t1) ++ mergeSimple (List.drop s (p1 :: t1)) (p2 :: t2)
          congr 1
          refine ih _ _ ?_ ?_ hs2
          · have : ((p1 :: t1).drop s).length = (p1 :: t1).length - s := by
              simp
            simp only [this]
            simp at hlen ⊢
            omega
          · exact keysOf_sorted_drop s hs1
        · by_cases heq : p1.1 = p2.1
          · rw [pushMergeFuel, if_neg hlt, if_pos heq, mergeSimple, if_neg hlt, if_pos heq]
            congr 1
            refine ih _ _ ?_ (keysOf_sorted_tail hs1) (keysOf_sorted_tail hs2)
            simp at hlen ⊢
            omega
          · rw [pushMergeFuel, if_neg hlt, if_neg heq]
            have hgt : p2.1 < p1.1 := by
              rcases lt_trichotomy p1.1 p2.1 with h | h | h
              · exact absurd h hlt
              · exact absurd h heq
              · exact h
            have hadv : advance t2 (fun x => decide (x.1 < p1.1)) =
                (t2.takeWhile (fun x => decide (x.1 < p1.1))).length :=
              advance_spec (monoFalse_of_sorted (keysOf_sorted_tail hs2))
            set s := min (1 + advance t2 (fun x => decide (x.1 < p1.1))) 1000 with hsdef
            have hs1' : 1 ≤ s := by
              rw [hsdef]; omega
            have hall : ∀ q ∈ (p2 :: t2).take s, q.1 < p1.1 := by
              intro q hq
              match s, hs1' with
              | s' + 1, _ =>
                rw [List.take_succ_cons] at hq
                rcases List.mem_cons.1 hq with rfl | hq'
                · exact hgt
                · refine take_advance_lt (keysOf_sorted_tail hs2) ?_ q hq'
                  rw [← hadv]
                  omega
            rw [mergeSimple_copyRun2 p1 t1 s (p2 :: t2) hall]
            show List.take s (p2 :: t2) ++ pushMergeFuel n (p1 :: t1) (List.drop s (p2 :: t2)) =
              List.take s (p2 :: t2) ++ mergeSimple (p1 :: t1) (List.drop s (p2 :: t2))
            congr 1
            refine ih _ _ ?_ hs1 ?_
            · have : ((p2 :: t2).drop s).length = (p2 :: t2).length - s := by
                simp
              simp only [this]
              simp at hlen ⊢
              omega
            · exact keysOf_sorted_drop s hs2

/-- `push_merge` agrees with the reference merge on sorted inputs. -/
theorem pushMerge_eq_mergeSimple {l1 l2 : List (K × R)}
    (hs1 : (keysOf l1).Sorted (· < ·)) (hs2 : (keysOf l2).Sorted (· < ·)) :
    pushMerge l1 l2 = mergeSimple l1 l2 :=
  pushMergeFuel_eq_mergeSimple _ l1 l2 le_rfl hs1 hs2

end DBSP

namespace DBSP

variable {K : Type} [LinearOrder K] {R : Type} [AddCommGroup R] [DecidableEq R]

/-- Every key of the merged leaf comes from one of the inputs. -/
theorem mem_keysOf_mergeSimple :
    ∀ (l1 l2 : List (K × R)) (k : K), k ∈ keysOf (mergeSimple l1 l2) →
      k ∈ keysOf l1 ∨ k ∈ keysOf l2 := by
  intro l1 l2
  induction l1, l2 using mergeSimple.induct with
  | case1 l2 => intro k hk; right; simpa [mergeSimple] using hk
  | case2 p1 t1 => intro k hk; left; simpa [mergeSimple] using hk
  | case3 p1 t1 p2 t2 hlt ih =>
    intro k hk
    rw [mergeSimple, if_pos hlt] at hk
    simp only [keysOf, List.map_cons, List.mem_cons] at hk ⊢
    rcases hk with rfl | hk
    · left; left; rfl
    · rcases ih k (by simpa [keysOf] using hk) with h | h
      · left; right; simpa [keysOf] using h
      · right; simpa [keysOf] using h
  | case4 p1 t1 p2 t2 hlt heq ih =>
    intro k hk
    rw [mergeSimple, if_neg hlt, if_pos heq] at hk
    simp only [keysOf, List.map_append, List.mem_append] at hk
    rcases hk with hk | hk
    · by_cases hz : p1.2 + p2.2 = 0
      · rw [if_pos hz] at hk; simp at hk
      · rw [if_neg hz] at hk
        simp at hk
        subst hk
        left; simp [keysOf]
    · rcases ih k (by simpa [keysOf] using hk) with h | h
      · left; simp [keysOf] at h ⊢; right; exact h
      · right; simp [keysOf] at h ⊢; right; exact h
  | case5 p1 t1 p2 t2 hlt heq ih =>
    intro k hk
    rw [mergeSimple, if_neg hlt, if_neg heq] at hk
    simp only [keysOf, List.map_cons, List.mem_cons] at hk ⊢
    rcases hk with rfl | hk
    · right; left; rfl
    · rcases ih k (by simpa [keysOf] using hk) with h | h
      · left; simpa [keysOf] using h
      · right; simp [keysOf] at h ⊢; right; exact h

theorem sorted_cons_iff {k : K} {ks : List K} :
    (k :: ks).Sorted (· < ·) ↔ (∀ x ∈ ks, k < x) ∧ ks.Sorted (· < ·) := by
  constructor
  · intro h; exact ⟨fun x hx => List.rel_of_sorted_cons h x hx, h.of_cons⟩
  · intro ⟨h1, h2⟩; exact List.sorted_cons.2 ⟨h1, h2⟩

/-- The reference merge preserves strictly ascending keys. -/
theorem mergeSimple_sorted :
    ∀ (l1 l2 : List (K × R)), (keysOf l1).Sorted (· < ·) →
      (keysOf l2).Sorted (· < ·) →
      (keysOf (mergeSimple l1 l2)).Sorted (· < ·) := by
  intro l1 l2
  induction l1, l2 using mergeSimple.induct with
  | case1 l2 => intro _ h2; simpa [mergeSimple] using h2
  | case2 p1 t1 => intro h1 _; simpa [mergeSimple] using h1
  | case3 p1 t1 p2 t2 hlt ih =>
    intro h1 h2
    rw [mergeSimple, if_pos hlt]
    simp only [keysOf, List.map_cons] at h1 ⊢
    rw [sorted_cons_iff] at h1 ⊢
    refine ⟨?_, ih h1.2 h2⟩
    intro x hx
    rcases mem_keysOf_mergeSimple _ _ x (by simpa [keysOf] using hx) with h | h
    · exact h1.1 x (by simpa [keysOf] using h)
    · simp only [keysOf, List.map_cons, List.mem_cons] at h
      rcases h with rfl | h
      · exact hlt
      · exact lt_trans hlt (List.rel_of_sorted_cons
          (show (p2.1 :: keysOf t2).Sorted (· < ·) from by
            simpa only [keysOf, List.map_cons] using h2) x (by simpa [keysOf] using h))
  | case4 p1 t1 p2 t2 hlt heq ih =>
    intro h1 h2
    rw [mergeSimple, if_neg hlt, if_pos heq]
    have ht1 : (keysOf t1).Sorted (· < ·) := keysOf_sorted_tail h1
    have ht2 : (keysOf t2).Sorted (· < ·) := keysOf_sorted_tail h2
    have hrest := ih ht1 ht2
    by_cases hz : p1.2 + p2.2 = 0
    · rw [if_pos hz]; simpa using hrest
    · rw [if_neg hz]
      simp only [keysOf, List.map_append, List.map_cons, List.map_nil] at hrest ⊢
      show ((p1.1 :: []) ++ (mergeSimple t1 t2).map Prod.fst).Sorted (· < ·)
      rw [List.singleton_append, sorted_cons_iff]
      refine ⟨?_, hrest⟩
      intro x hx
      rcases mem_keysOf_mergeSimple _ _ x (by simpa [keysOf] using hx) with h | h
      · exact List.rel_of_sorted_cons
          (show (p1.1 :: keysOf t1).Sorted (· < ·) from by
            simpa only [keysOf, List.map_cons] using h1) x (by simpa [keysOf] using h)
      · rw [heq]
        exact List.rel_of_sorted_cons
          (show (p2.1 :: keysOf t2).Sorted (· < ·) from by
            simpa only [keysOf, List.map_cons] using h2) x (by simpa [keysOf] using h)
  | case5 p1 t1 p2 t2 hlt heq ih =>
    intro h1 h2
    rw [mergeSimple, if_neg hlt, if_neg heq]
    have hgt : p2.1 < p1.1 := by
      rcases lt_trichotomy p1.1 p2.1 with h | h | h
      · exact absurd h hlt
      · exact absurd h heq
      · exact h
    simp only [keysOf, List.map_cons] at h2 ⊢
    rw [sorted_cons_iff] at h2 ⊢
    refine ⟨?_, ih h1 h2.2⟩
    intro x hx
    rcases mem_keysOf_mergeSimple _ _ x (by simpa [keysOf] using hx) with h | h
    · simp only [keysOf, List.map_cons, List.mem_cons] at h
      rcases h with rfl | h
      · exact hgt
      · exact lt_trans hgt (List.rel_of_sorted_cons
          (show (p1.1 :: keysOf t1).Sorted (· < ·) from by
            simpa only [keysOf, List.map_cons] using h1) x (by simpa [keysOf] using h))
    · exact h2.1 x (by simpa [keysOf] using h)

/-- The reference merge never emits a zero weight when the inputs carry
none. -/
theorem mergeSimple_nonzero :
    ∀ (l1 l2 : List (K × R)), (∀ p ∈ l1, p.2 ≠ 0) → (∀ p ∈ l2, p.2 ≠ 0) →
      ∀ p ∈ mergeSimple l1 l2, p.2 ≠ 0 := by
  intro l1 l2
  induction l1, l2 using mergeSimple.induct with
  | case1 l2 => intro _ h2; simpa [mergeSimple] using h2
  | case2 p1 t1 => intro h1 _; simpa [mergeSimple] using h1
  | case3 p1 t1 p2 t2 hlt ih =>
    intro h1 h2 p hp
    rw [mergeSimple, if_pos hlt] at hp
    rcases List.mem_cons.1 hp with rfl | hp
    · exact h1 p (by simp)
    · exact ih (fun q hq => h1 q (by simp [hq])) h2 p hp
  | case4 p1 t1 p2 t2 hlt heq ih =>
    intro h1 h2 p hp
    rw [mergeSimple, if_neg hlt, if_pos heq] at hp
    rcases List.mem_append.1 hp with hp | hp
    · by_cases hz : p1.2 + p2.2 = 0
      · rw [if_pos hz] at hp; simp at hp
      · rw [if_neg hz] at hp
        simp at hp
        subst hp
        exact hz
    · exact ih (fun q hq => h1 q (by simp [hq])) (fun q hq => h2 q (by simp [hq])) p hp
  | case5 p1 t1 p2 t2 hlt heq ih =>
    intro h1 h2 p hp
    rw [mergeSimple, if_neg hlt, if_neg heq] at hp
    rcases List.mem_cons.1 hp with rfl | hp
    · exact h2 p (by simp)
    · exact ih h1 (fun q hq => h2 q (by simp [hq])) p hp

/-- The Z-set denoted by a leaf: the sum of the weights attached to `k`. -/
def zOf (l : List (K × R)) (k : K) : R :=
  (l.map (fun p => if p.1 = k then p.2 else 0)).sum

theorem zOf_nil (k : K) : zOf ([] : List (K × R)) k = 0 := rfl

theorem zOf_cons (p : K × R) (l : List (K × R)) (k : K) :
    zOf (p :: l) k = (if p.1 = k then p.2 else 0) + zOf l k := by
  simp [zOf]

theorem zOf_append (l1 l2 : List (K × R)) (k : K) :
    zOf (l1 ++ l2) k = zOf l1 k + zOf l2 k := by
  simp [zOf]

/-- The reference merge is addition of Z-sets. -/
theorem zOf_mergeSimple :
    ∀ (l1 l2 : List (K × R)) (k : K),
      zOf (mergeSimple l1 l2) k = zOf l1 k + zOf l2 k := by
  intro l1 l2
  induction l1, l2 using mergeSimple.induct with
  | case1 l2 => intro k; simp [mergeSimple, zOf_nil]
  | case2 p1 t1 => intro k; simp [mergeSimple, zOf_nil]
  | case3 p1 t1 p2 t2 hlt ih =>
    intro k
    simp only [mergeSimple, if_pos hlt, zOf_cons, ih]
    abel
  | case4 p1 t1 p2 t2 hlt heq ih =>
    intro k
    simp only [mergeSimple, if_neg hlt, if_pos heq, zOf_append, zOf_cons, ih]
    by_cases hz : p1.2 + p2.2 = 0
    · simp only [if_pos hz, zOf_nil]
      by_cases hk : p1.1 = k
      · simp only [if_pos hk, if_pos (heq ▸ hk)]
        have hx : p1.2 + zOf t1 k + (p2.2 + zOf t2 k) =
            (p1.2 + p2.2) + (zOf t1 k + zOf t2 k) := by abel
        rw [hx, hz, zero_add]
      · simp only [if_neg hk, if_neg (heq ▸ hk)]
        abel
    · simp only [if_neg hz, zOf_cons, zOf_nil]
      by_cases hk : p1.1 = k
      · simp only [if_pos hk, if_pos (heq ▸ hk)]
        abel
      · simp only [if_neg hk, if_neg (heq ▸ hk)]
        abel
  | case5 p1 t1 p2 t2 hlt heq ih =>
    intro k
    simp only [mergeSimple, if_neg hlt, if_neg heq, zOf_cons, ih]
    abel

/-- **C4.** Merging `A = [(1,+1),(2,+1),(3,+1)]` with
`B = [(2,-1),(3,+1),(4,+1)]` over integer weights yields exactly
`[(1,+1),(3,+2),(4,+1)]`: coincident keys add their weights and key `2`
is dropped because its sum is zero (scenario S1 of the spec). -/
theorem claim_C4_leaf_merge_cancellation :
    leafMerge [((1 : Nat), (1 : Int)), (2, 1), (3, 1)] [(2, -1), (3, 1), (4, 1)] =
      [(1, 1), (3, 2), (4, 1)] := by
  decide

/-- **C5.** For every two `OrderedLeaf` inputs with strictly ascending keys
and no zero-weight entries, the leaf produced by
`MergeBuilder::push_merge` (hence by `Trie::merge`) again has strictly
ascending keys and no zero-weight entry. -/
theorem claim_C5_merge_preserves_wf (l1 l2 : List (K × R))
    (h1 : WfLeaf l1) (h2 : WfLeaf l2) : WfLeaf (leafMerge l1 l2) := by
  unfold leafMerge
  rw [pushMerge_eq_mergeSimple h1.1 h2.1]
  exact ⟨mergeSimple_sorted l1 l2 h1.1 h2.1, mergeSimple_nonzero l1 l2 h1.2 h2.2⟩

/-- Witness for C5 at the concrete leaves of scenario S1. -/
theorem claim_C5_witness :
    WfLeaf [((1 : Nat), (1 : Int)), (2, 1), (3, 1)] ∧
      WfLeaf [((2 : Nat), (-1 : Int)), (3, 1), (4, 1)] ∧
      WfLeaf (leafMerge [((1 : Nat), (1 : Int)), (2, 1), (3, 1)]
        [(2, -1), (3, 1), (4, 1)]) := by
  have h1 : WfLeaf [((1 : Nat), (1 : Int)), (2, 1), (3, 1)] := by
    constructor
    · simp [keysOf]
    · intro p hp
      fin_cases hp <;> decide
  have h2 : WfLeaf [((2 : Nat), (-1 : Int)), (3, 1), (4, 1)] := by
    constructor
    · simp [keysOf]
    · intro p hp
      fin_cases hp <;> decide
  exact ⟨h1, h2, claim_C5_merge_preserves_wf _ _ h1 h2⟩

end DBSP

namespace DBSP

/-! ## Indexed Z-set batches (src/trace/ord/indexed_zset_batch.rs)

`OrdIndexedZSet<K, V, R, O>` wraps an `OrderedLayer<K, OrderedLeaf<V, R>, O>`
together with two antichains over the unit timestamp `()`.  We instantiate
`K = V = Nat`, `R = Int`.  A unit-time antichain is either `{()}`
(`Antichain::from_elem(())`) or empty (`Antichain::new()`); we embed it as a
`Bool` that is `true` exactly when the antichain contains `()`. -/

/-- Modelled from the spec: the lattice `meet` of two unit-time antichains.
The `Lattice for Antichain` implementation lives in `src/lattice.rs`, which
is not part of the sources; per §4.3 and the glossary the meet of two
frontiers is the minimized union, which for unit time contains `()` iff
either operand does. -/
def acMeet (a b : Bool) : Bool := a || b

/-- Modelled from the spec: the lattice `join` of two unit-time antichains:
the minimized set of pairwise joins, which for unit time contains `()` iff
both operands do. -/
def acJoin (a b : Bool) : Bool := a && b

/-- Modelled from the spec: `OrderedBuilder::push_merge` of
`OrderedLayer<K, OrderedLeaf<V, R>>` (the file
src/trace/layers/ordered.rs is not among the sources).  Following the merge
algorithm of §4.2: keys are merged in ascending order; runs of keys smaller
than the other side's key are copied (the `advance`/1000-cap chunking of run
copies only groups copy operations and cannot change the output, so the
model copies one key at a time); on equal keys the child leaves are merged
recursively through the leaf `push_merge` and the key is kept only when the
child builder added entries. -/
def layerMerge : List (Nat × List (Nat × Int)) → List (Nat × List (Nat × Int)) →
    List (Nat × List (Nat × Int))
  | [], l2 => l2
  | p1 :: t1, [] => p1 :: t1
  | p1 :: t1, p2 :: t2 =>
    if p1.1 < p2.1 then
      p1 :: layerMerge t1 (p2 :: t2)
    else if p1.1 = p2.1 then
      (if (pushMerge p1.2 p2.2).isEmpty then [] else [(p1.1, pushMerge p1.2 p2.2)]) ++
        layerMerge t1 t2
    else
      p2 :: layerMerge (p1 :: t1) t2
  termination_by l1 l2 => l1.length + l2.length

/-- `OrdIndexedZSet` at `K = V = Nat`, `R = Int`: the trie layer plus the
unit-time antichain bounds. -/
structure OrdIndexedZSet where
  layer : List (Nat × List (Nat × Int))
  lower : Bool
  upper : Bool
  deriving DecidableEq, Repr

/-- `BatchReader::len` of the indexed Z-set: the total tuple count of the
layer. -/
def OrdIndexedZSet.len (b : OrdIndexedZSet) : Nat :=
  (b.layer.map (fun p => p.2.length)).sum

/-- `OrdIndexedZSetMerger`: the in-progress merge state holds only the
result builder. -/
structure OrdIndexedZSetMerger where
  result : List (Nat × List (Nat × Int))

/-- `Merger::new` — an empty result builder (`with_capacity`). -/
def OrdIndexedZSetMerger.new (_b1 _b2 : OrdIndexedZSet) : OrdIndexedZSetMerger :=
  ⟨[]⟩

/-- `Merger::done` (lines 356-362): wrap the builder output with
`lower = Antichain::from_elem(())` and `upper = Antichain::new()`. -/
def OrdIndexedZSetMerger.done (m : OrdIndexedZSetMerger) : OrdIndexedZSet :=
  ⟨m.result, true, false⟩

/-- `Merger::work` (lines 363-375): run `push_merge` over full cursors of
both sources, subtract its return value (the builder's key count) from the
fuel, and clamp the fuel to at least `1`. -/
def OrdIndexedZSetMerger.work (m : OrdIndexedZSetMerger)
    (source1 source2 : OrdIndexedZSet) (fuel : Int) :
    OrdIndexedZSetMerger × Int :=
  let result := m.result ++ layerMerge source1.layer source2.layer
  (⟨result⟩, max (fuel - result.length) 1)

/-- The `Add` instance for `OrdIndexedZSet` (lines 213-223), which computes
`lower = meet`, `upper = join` — the bounds the spec ascribes to merging. -/
def OrdIndexedZSet.add (a b : OrdIndexedZSet) : OrdIndexedZSet :=
  ⟨layerMerge a.layer b.layer, acMeet a.lower b.lower, acJoin a.upper b.upper⟩

/-- The batch produced by `begin_merge(b1, b2)`, `work` to completion, then
`done()`. -/
def mergerOutput (b1 b2 : OrdIndexedZSet) (fuel : Int) : OrdIndexedZSet :=
  (OrdIndexedZSetMerger.work (OrdIndexedZSetMerger.new b1 b2) b1 b2 fuel).1.done

/-- **C6 (counterexample).** The claim fails as stated: merging two batches
whose `upper` antichain is `{()}` yields a batch with `upper = {}` although
the join of the inputs' uppers is `{()}`.  `done()` (lines 356-362)
hard-codes `lower = Antichain::from_elem(())`, `upper = Antichain::new()`
instead of computing meet/join as the `Add` instance does. -/
theorem claim_C6_counterexample :
    ¬ ((mergerOutput ⟨[(0, [(0, 1)])], true, true⟩ ⟨[(1, [(0, 1)])], true, true⟩ 1000).lower =
        acMeet true true ∧
      (mergerOutput ⟨[(0, [(0, 1)])], true, true⟩ ⟨[(1, [(0, 1)])], true, true⟩ 1000).upper =
        acJoin true true) := by
  decide

/-- **C6 (amended).** The merger's `done()` always returns the canonical
unit-time bounds `lower = {()}`, `upper = {}`; for inputs that themselves
carry the canonical bounds — as every unit-time batch constructor in the
sources produces — these coincide with `meet(b1.lower, b2.lower)` and
`join(b1.upper, b2.upper)`. -/
theorem claim_C6_merger_bounds (b1 b2 : OrdIndexedZSet) (fuel : Int)
    (h1 : b1.lower = true) (h2 : b2.lower = true)
    (h3 : b1.upper = false) (h4 : b2.upper = false) :
    (mergerOutput b1 b2 fuel).lower = acMeet b1.lower b2.lower ∧
    (mergerOutput b1 b2 fuel).upper = acJoin b1.upper b2.upper := by
  constructor
  · rw [h1]; rfl
  · rw [h3]; rfl

/-- Witness for the amended C6 at concrete canonical batches. -/
theorem claim_C6_witness :
    (mergerOutput ⟨[(0, [(0, 1)])], true, false⟩ ⟨[(1, [(0, 1)])], true, false⟩ 7).lower =
      acMeet true true ∧
    (mergerOutput ⟨[(0, [(0, 1)])], true, false⟩ ⟨[(1, [(0, 1)])], true, false⟩ 7).upper =
      acJoin false false :=
  claim_C6_merger_bounds ⟨[(0, [(0, 1)])], true, false⟩ ⟨[(1, [(0, 1)])], true, false⟩ 7
    rfl rfl rfl rfl

/-- **C8.** A call to the indexed Z-set `Merger::work` on a fresh merger
decrements `fuel` by the number of key entries the merge wrote (the units of
work performed) and clamps the result to at least `1`, guaranteeing forward
progress. -/
theorem claim_C8_work_fuel (b1 b2 : OrdIndexedZSet) (fuel : Int) :
    (OrdIndexedZSetMerger.work (OrdIndexedZSetMerger.new b1 b2) b1 b2 fuel).2 =
      max (fuel - (layerMerge b1.layer b2.layer).length) 1 ∧
    1 ≤ (OrdIndexedZSetMerger.work (OrdIndexedZSetMerger.new b1 b2) b1 b2 fuel).2 := by
  constructor
  · simp [OrdIndexedZSetMerger.work, OrdIndexedZSetMerger.new]
  · simp [OrdIndexedZSetMerger.work]

end DBSP

namespace DBSP

/-! ## Spine merge states over indexed Z-set batches
(src/trace/spine_fueled.rs, lines 828-977, instantiated at
`B = OrdIndexedZSet`) -/

/-- `MergeVariant<B>`: an actual in-progress merge, or a completed one. -/
inductive IMergeVariant where
  | inProgress (b1 b2 : OrdIndexedZSet) (m : OrdIndexedZSetMerger)
  | complete (b : Option OrdIndexedZSet)

/-- `MergeVariant::work` (lines 965-977): run the merger's `work`, and move
to `Complete` when fuel remains positive. -/
def IMergeVariant.work (v : IMergeVariant) (fuel : Int) : IMergeVariant × Int :=
  match v with
  | .inProgress b1 b2 m =>
    let wm := m.work b1 b2 fuel
    if 0 < wm.2 then
      (.complete (some wm.1.done), wm.2)
    else
      (.inProgress b1 b2 wm.1, wm.2)
  | .complete b => (.complete b, fuel)

/-- `MergeState<B>`: a vacant level, a single (possibly structurally empty)
batch, or a merging pair. -/
inductive IMergeState where
  | vacant
  | single (b : Option OrdIndexedZSet)
  | double (v : IMergeVariant)

/-- `MergeState::begin_merge` (lines 920-935). -/
def IMergeState.beginMerge (batch1 batch2 : Option OrdIndexedZSet) : IMergeState :=
  match batch1, batch2 with
  | some b1, some b2 => .double (.inProgress b1 b2 (OrdIndexedZSetMerger.new b1 b2))
  | none, some x => .double (.complete (some x))
  | some x, none => .double (.complete (some x))
  | none, none => .double (.complete none)

/-- `MergeState::work` (lines 897-902). -/
def IMergeState.work (s : IMergeState) (fuel : Int) : IMergeState × Int :=
  match s with
  | .double v =>
    let wv := v.work fuel
    (.double wv.1, wv.2)
  | s => (s, fuel)

/-- **C9.** A single `work` call on the merge begun from any two indexed
Z-set batches performs the entire merge and leaves the fuel positive: the
`Double` slot is `Complete` after one call, holding exactly the one-shot
merge of the two layers with canonical unit-time bounds, so the fueled
merge path is equivalent to the one-shot merge.  (The layer merge of the
missing src/trace/layers/ordered.rs is modelled from the spec as
`layerMerge`.) -/
theorem claim_C9_one_shot_merge (b1 b2 : OrdIndexedZSet) (fuel : Int) :
    (IMergeState.beginMerge (some b1) (some b2)).work fuel =
      (.double (.complete (some ⟨layerMerge b1.layer b2.layer, true, false⟩)),
        max (fuel - (layerMerge b1.layer b2.layer).length) 1) ∧
    1 ≤ max (fuel - ((layerMerge b1.layer b2.layer).length : Int)) 1 := by
  constructor
  · have hpos : (0 : Int) < max (fuel - (layerMerge b1.layer b2.layer).length) 1 := by
      have := le_max_right (fuel - ((layerMerge b1.layer b2.layer).length : Int)) 1
      omega
    simp only [IMergeState.beginMerge, IMergeState.work, IMergeVariant.work,
      OrdIndexedZSetMerger.work, OrdIndexedZSetMerger.new, OrdIndexedZSetMerger.done,
      List.nil_append]
    rw [if_pos hpos]
  · exact le_max_right _ _

end DBSP

namespace DBSP

/-! ## Scalar integration (src/operator/integrate.rs, lines 66-102) -/

/-- The unit-delay operator `z^-1`: emits the group zero at the first step
and thereafter the previous value of its input stream. -/
def z1 (s : Nat → Int) : Nat → Int
  | 0 => 0
  | n + 1 => s n

/-- Modelled from the spec: `Stream::integrate` builds the circuit
`integral = Plus(feedback.stream(), input)` with
`feedback.connect(&integral)`, where `feedback` is a `DelayedFeedback`
(`z^-1` initialised with the `HasZero` zero; src/operator/z1.rs and the
circuit machinery are not among the sources).  Unfolding the feedback loop
gives the running sum: `integral[0] = 0 + input[0]`,
`integral[n+1] = integral[n] + input[n+1]`. -/
def integrate (input : Nat → Int) : Nat → Int
  | 0 => 0 + input 0
  | n + 1 => integrate input n + input (n + 1)

/-- The circuit equation: the integral is the sum of its own delayed value
and the current input, i.e. the feedback connection holds at every step. -/
theorem integrate_circuit_eq (input : Nat → Int) (n : Nat) :
    integrate input n = z1 (integrate input) n + input n := by
  cases n with
  | zero => simp [integrate, z1]
  | succ m => simp [integrate, z1]

/-- **C10.** Feeding a constant stream of `1`s into `Stream::integrate`
yields `1, 2, 3, 4, …`: the output at step `n` is `n + 1`
(scenario S5 of the spec and the doc example of `integrate`). -/
theorem claim_C10_integrate_ones (n : Nat) :
    integrate (fun _ => (1 : Int)) n = n + 1 := by
  induction n with
  | zero => simp [integrate]
  | succ m ih =>
    show integrate (fun _ => (1 : Int)) m + 1 = (m + 1 : Nat) + 1
    rw [ih]
    push_cast
    ring

end DBSP

namespace DBSP

/-! ## The fueled spine (src/trace/spine_fueled.rs)

Shallow embedding of `Spine<B>` with batches embedded as ordered leaves
`List (K × R)` (the unit-time `OrdZSet` family).  For this batch family a
merger's `work` performs the whole `push_merge` and clamps the fuel to
`max(fuel, 1) > 0` (src/trace/ord/indexed_zset_batch.rs, lines 363-375),
so `MergeVariant::work` always transitions to `Complete`: the embedded
merge result is `mergeSimple`, which `push_merge` equals on well-formed
leaves (`pushMerge_eq_mergeSimple`).  Panics are `none`; in particular
`insert_at` returns `none` exactly on the
"Attempted to insert batch into incomplete merge!" panic. -/

variable {K : Type} [LinearOrder K] {R : Type} [AddCommGroup R] [DecidableEq R]

/-- `isize::MAX` (64-bit). -/
def isizeMax : Int := 2 ^ 63 - 1

/-- Reinterpret a `usize` value (wrapping at `2^64`) as an `isize`,
as Rust's `as isize` cast does. -/
def asIsize (n : Nat) : Int :=
  let m : Nat := n % 2 ^ 64
  if m < 2 ^ 63 then (m : Int) else (m : Int) - 2 ^ 64

/-- Reinterpret an `isize` value as a `usize`, as Rust's `as usize` cast. -/
def usizeOfIsize (i : Int) : Nat := (i % (2 ^ 64 : Int)).toNat

/-- `n.next_power_of_two().trailing_zeros()`: the ceiling of `log2 n`,
computed by the structural recursion `ceil_log2 n = 1 + ceil_log2 (⌈n/2⌉)`
(fuel-indexed so that it evaluates by kernel reduction). -/
def levelOfGo : Nat → Nat → Nat
  | 0, _ => 0
  | f + 1, n => if n ≤ 1 then 0 else 1 + levelOfGo f ((n + 1) / 2)

/-- `n.next_power_of_two().trailing_zeros() as usize` (lines 406, 458-459). -/
def levelOf (n : Nat) : Nat := levelOfGo n n

/-- `MergeVariant<B>` (lines 938-944): an in-progress merge of two batches,
or a completed one (`None` = structurally empty). -/
inductive MergeVariant (K R : Type) where
  | InProgress (b1 b2 : List (K × R))
  | Complete (b : Option (List (K × R)))
deriving DecidableEq

/-- `MergeState<B>` (lines 828-838): a layer is empty, holds one batch
(`None` = structurally empty placeholder), or two merging batches. -/
inductive MergeState (K R : Type) where
  | Vacant
  | Single (b : Option (List (K × R)))
  | Double (v : MergeVariant K R)
deriving DecidableEq

/-- `MergeState::len` (lines 842-849). -/
def MergeState.len : MergeState K R → Nat
  | .Single (some b) => b.length
  | .Double (.InProgress b1 b2) => b1.length + b2.length
  | .Double (.Complete (some b)) => b.length
  | _ => 0

/-- `MergeState::is_vacant`. -/
def MergeState.isVacant : MergeState K R → Bool
  | .Vacant => true
  | _ => false

/-- `MergeState::is_single`. -/
def MergeState.isSingle : MergeState K R → Bool
  | .Single _ => true
  | _ => false

/-- `MergeState::is_double`. -/
def MergeState.isDouble : MergeState K R → Bool
  | .Double _ => true
  | _ => false

/-- `MergeState::is_complete`: a `Double(Complete(_))` layer. -/
def MergeState.isComplete : MergeState K R → Bool
  | .Double (.Complete _) => true
  | _ => false

/-- `MergeVariant::work` (lines 965-977): the merger runs the whole
`push_merge` (= `mergeSimple` on well-formed leaves), charges one fuel
unit per key written and clamps the fuel to `max(fuel, 1)`
(src/trace/ord/indexed_zset_batch.rs, lines 363-375); the clamped fuel is
positive, so the `if *fuel > 0` promotion to `Complete` always fires. -/
def MergeVariant.work : MergeVariant K R → Int → MergeVariant K R × Int
  | .InProgress b1 b2, fuel =>
    let merged := mergeSimple b1 b2
    let fuel' := max (fuel - merged.length) 1
    if 0 < fuel' then (.Complete (some merged), fuel')
    else (.InProgress b1 b2, fuel')
  | .Complete b, fuel => (.Complete b, fuel)

/-- `MergeVariant::complete` (lines 951-959): work with `isize::MAX` fuel,
then extract the completed batch.  The `InProgress` fallback is the
"Failed to complete a merge!" panic, unreachable because `work` always
completes. -/
def MergeVariant.complete (v : MergeVariant K R) : Option (List (K × R)) :=
  match (MergeVariant.work v isizeMax).1 with
  | .Complete b => b
  | .InProgress _ _ => none

/-- `MergeState::work` (lines 897-902). -/
def MergeState.work : MergeState K R → Int → MergeState K R × Int
  | .Double v, fuel =>
    let (v', fuel') := MergeVariant.work v fuel
    (.Double v', fuel')
  | s, fuel => (s, fuel)

/-- `MergeState::complete` (lines 874-880). -/
def MergeState.complete : MergeState K R → Option (List (K × R))
  | .Vacant => none
  | .Single batch => batch
  | .Double variant => variant.complete

/-- `MergeState::begin_merge` (lines 920-935). -/
def MergeState.begin_merge (batch1 batch2 : Option (List (K × R))) :
    MergeState K R :=
  match batch1, batch2 with
  | some b1, some b2 => .Double (.InProgress b1 b2)
  | none, some x => .Double (.Complete (some x))
  | some x, none => .Double (.Complete (some x))
  | none, none => .Double (.Complete none)

/-- Slot `i` of the merging vector (out of range reads `Vacant`, matching
the vector extended with `Vacant` entries on demand). -/
def getSlot (m : List (MergeState K R)) (i : Nat) : MergeState K R :=
  m.getD i .Vacant

/-- `while self.merging.len() <= index { self.merging.push(Vacant) }`. -/
def padTo (m : List (MergeState K R)) (n : Nat) : List (MergeState K R) :=
  m ++ List.replicate (n - m.length) .Vacant

/-- `Spine::insert_at` (lines 706-724): pad with `Vacant`, then place the
batch.  A `Double` target is the
"Attempted to insert batch into incomplete merge!" panic: `none`. -/
def insert_at (m : List (MergeState K R)) (batch : Option (List (K × R)))
    (index : Nat) : Option (List (MergeState K R)) :=
  let mp := padTo m (index + 1)
  match getSlot mp index with
  | .Vacant => some (mp.set index (.Single batch))
  | .Single old => some (mp.set index (MergeState.begin_merge old batch))
  | .Double _ => none

/-- `Spine::complete_at` (lines 727-729): `merging[index].complete()`,
which replaces the slot by `Vacant` and returns its completed batch. -/
def complete_at (m : List (MergeState K R)) (index : Nat) :
    Option (List (K × R)) × List (MergeState K R) :=
  ((getSlot m index).complete, m.set index .Vacant)

/-- `self.merging[index].work(&mut fuel)` inside `apply_fuel`. -/
def work_at (m : List (MergeState K R)) (index : Nat) (fuel : Int) :
    List (MergeState K R) :=
  m.set index ((getSlot m index).work fuel).1

/-- The body of `Spine::apply_fuel` (lines 673-699): for each `index` in
`0..n` (the length at entry, evaluated once), work the slot with a fresh
copy of the fuel, and if the merge is complete, extract it and insert it
at `index + 1`. -/
def apply_fuel_go (fuel : Int) :
    Nat → Nat → List (MergeState K R) → Option (List (MergeState K R))
  | 0, _, m => some m
  | steps + 1, index, m =>
    let m1 := work_at m index fuel
    if (getSlot m1 index).isComplete then
      match complete_at m1 index with
      | (c, m2) =>
        match insert_at m2 c (index + 1) with
        | none => none
        | some m3 => apply_fuel_go fuel steps (index + 1) m3
    else apply_fuel_go fuel steps (index + 1) m1

/-- `Spine::apply_fuel` (lines 673-699). -/
def apply_fuel (fuel : Int) (m : List (MergeState K R)) :
    Option (List (MergeState K R)) :=
  apply_fuel_go fuel m.length 0 m

/-- The loop of `Spine::roll_up` (lines 648-651): for `i` in `0..index`,
insert the running merge at `i` and complete the slot. -/
def roll_up_go :
    Nat → Nat → Option (List (K × R)) → List (MergeState K R) →
    Option (Option (List (K × R)) × List (MergeState K R))
  | 0, _, merged, m => some (merged, m)
  | steps + 1, i, merged, m =>
    match insert_at m merged i with
    | none => none
    | some m1 =>
      match complete_at m1 i with
      | (c, m2) => roll_up_go steps (i + 1) c m2

/-- `Spine::roll_up` (lines 638-664). -/
def roll_up (m0 : List (MergeState K R)) (index : Nat) :
    Option (List (MergeState K R)) :=
  let m := padTo m0 (index + 1)
  if (m.take index).any (fun s => !s.isVacant) then
    match roll_up_go index 0 none m with
    | none => none
    | some (merged, m1) =>
      match insert_at m1 merged index with
      | none => none
      | some m2 =>
        if (getSlot m2 index).isDouble then
          match complete_at m2 index with
          | (c, m3) => insert_at m3 c (index + 1)
        else some m2
  else some m

/-- The weight a slot contributes to `tidy_layers`' `smaller` sum
(lines 765-776): `1 << index` for a `Single`, `2 << index` for a
`Double`, nothing for `Vacant`. -/
def MergeState.wt : MergeState K R → Nat → Nat
  | .Vacant, _ => 0
  | .Single _, index => 1 <<< index
  | .Double _, index => 2 <<< index

/-- `smaller` accumulated over `merging[..k]` starting at slot index `i`. -/
def smallerWGo : Nat → List (MergeState K R) → Nat → Nat
  | _, [], _ => 0
  | _, _ :: _, 0 => 0
  | i, s :: rest, k + 1 => s.wt i + smallerWGo (i + 1) rest k

/-- The `smaller` sum of `tidy_layers` over the slots below `k`. -/
def smallerW (m : List (MergeState K R)) (k : Nat) : Nat :=
  smallerWGo 0 m k

/-- The `while appropriate_level < length - 1` loop of `tidy_layers`
(lines 751-792), fuelled by the vector length (each iteration either
returns or removes one slot, and the top slot is never removed, so the
length at entry bounds the iteration count). -/
def tidy_go (app : Nat) :
    Nat → List (MergeState K R) → Option (List (MergeState K R))
  | 0, m => some m
  | budget + 1, m =>
    let length := m.length
    if app < length - 1 then
      match getSlot m (length - 2) with
      | .Vacant => tidy_go app budget (m.eraseIdx (length - 2))
      | .Single none => tidy_go app budget (m.eraseIdx (length - 2))
      | .Single (some batch) =>
        if smallerW m (length - 2) ≤ (1 <<< length) / 8 then
          insert_at (m.eraseIdx (length - 2)) (some batch) (length - 2)
        else some m
      | .Double _ => some m
    else some m

/-- `Spine::tidy_layers` (lines 732-795). -/
def tidy_layers (m : List (MergeState K R)) :
    Option (List (MergeState K R)) :=
  if m.length = 0 then some m
  else
    let top := getSlot m (m.length - 1)
    if top.isSingle then tidy_go (levelOf top.len) m.length m
    else some m

/-- `Spine::reduced` (lines 489-503): no `Double` slot, and at most one
slot holding updates. -/
def reduced (m : List (MergeState K R)) : Bool :=
  !(m.any MergeState.isDouble) &&
    decide ((m.countP fun s => decide (0 < s.len)) ≤ 1)

/-- The spine state (lines 526-544): the merging vector, the unit-time
lower/upper antichain bounds (`true` iff the antichain contains `()`),
the dirty flag and the effort multiplier. -/
structure Spine (K R : Type) where
  merging : List (MergeState K R)
  lower : Bool
  upper : Bool
  dirty : Bool
  effort : Nat
deriving DecidableEq

/-- `Spine::introduce_batch` (lines 551-629): fuel, `apply_fuel`,
`roll_up`, `insert_at`, `tidy_layers`.  The fuel
`(8 << batch_index) * effort` is computed in `usize` arithmetic and cast
`as isize`. -/
def introduce_batch (s : Spine K R) (batch : Option (List (K × R)))
    (batchIndex : Nat) : Option (Spine K R) := do
  let fuel := asIsize ((8 <<< batchIndex) * s.effort)
  let m1 ← apply_fuel fuel s.merging
  let m2 ← roll_up m1 batchIndex
  let m3 ← insert_at m2 batch batchIndex
  let m4 ← tidy_layers m3
  some { s with merging := m4 }

/-- A batch as `Spine::insert` receives it: its leaf data and its
unit-time `lower`/`upper` antichain bounds. -/
structure SpineBatch (K R : Type) where
  data : List (K × R)
  lower : Bool
  upper : Bool
deriving DecidableEq

/-- `Spine::insert` (lines 440-467): `assert!(lower != upper)` (panic =
`none`), empty batches are ignored, otherwise set `dirty`, meet/join the
bounds and introduce at level `len.next_power_of_two().trailing_zeros()`. -/
def Spine.insert (s : Spine K R) (batch : SpineBatch K R) :
    Option (Spine K R) :=
  if batch.lower = batch.upper then none
  else if batch.data.length = 0 then some s
  else
    introduce_batch
      { s with
        dirty := true
        lower := acMeet s.lower batch.lower
        upper := acJoin s.upper batch.upper }
      (some batch.data) (levelOf batch.data.length)

/-- `Spine::exert` (lines 393-414): tidy, then if not reduced either apply
fuel to existing merges or introduce an empty batch at the level
`(effort as usize).next_power_of_two().trailing_zeros()`. -/
def Spine.exert (s : Spine K R) (fuel : Int) : Option (Spine K R) := do
  let m ← tidy_layers s.merging
  let s := { s with merging := m }
  if reduced s.merging then some s
  else if s.merging.any MergeState.isDouble then do
    let m' ← apply_fuel fuel s.merging
    some { s with merging := m' }
  else introduce_batch s none (levelOf (usizeOfIsize fuel))

/-- `Spine::with_effort` (lines 526-544): `lower` starts as
`Antichain::from_elem(minimum)` (contains `()`), `upper` as
`Antichain::new()` (empty). -/
def Spine.with_effort (effort : Nat) : Spine K R :=
  { merging := []
    lower := true
    upper := false
    dirty := false
    effort := if effort = 0 then 1 else effort }

/-- `Trace::new` (lines 374-376). -/
def Spine.new : Spine K R := Spine.with_effort 1

/-- The `while !self.reduced() { self.exert(&mut fuel) }` loop of
`Spine::consolidate` (lines 420-423) with `fuel = isize::MAX` (`exert`
never writes the fuel back: `apply_fuel` spends a fresh copy per slot).
`none` is a panic inside `exert`; `some none` means the budget ran out
with the loop still running; `some (some s)` is the reduced state the
loop exits with. -/
def consolidateLoop : Nat → Spine K R → Option (Option (Spine K R))
  | 0, s => if reduced s.merging then some (some s) else some none
  | budget + 1, s =>
    if reduced s.merging then some (some s)
    else
      match Spine.exert s isizeMax with
      | none => none
      | some s' => consolidateLoop budget s'

/-- The extraction at the end of `Spine::consolidate` (lines 425-434):
the first `Single(Some(batch))` slot with a non-empty batch, else `None`. -/
def extractBatch (m : List (MergeState K R)) : Option (List (K × R)) :=
  m.findSome? fun s =>
    match s with
    | .Single (some batch) => if batch.length = 0 then none else some batch
    | _ => none

/-- A public trace operation: `Spine::insert` or `Spine::exert`. -/
inductive SpineOp (K R : Type) where
  | insert (b : SpineBatch K R)
  | exert (fuel : Int)
deriving DecidableEq

/-- Run one public operation. -/
def applyOp (s : Spine K R) : SpineOp K R → Option (Spine K R)
  | .insert b => Spine.insert s b
  | .exert fuel => Spine.exert s fuel

/-- Run a sequence of public operations on a newly constructed spine;
`none` means some operation panicked. -/
def runOps (ops : List (SpineOp K R)) : Option (Spine K R) :=
  ops.foldlM applyOp Spine.new

/-- The Z-set a slot holds at key `k`: the weights of all batches present
in the slot, an in-progress merge counting both inputs. -/
def MergeState.zslot : MergeState K R → K → R
  | .Vacant, _ => 0
  | .Single none, _ => 0
  | .Single (some b), k => zOf b k
  | .Double (.InProgress b1 b2), k => zOf b1 k + zOf b2 k
  | .Double (.Complete none), _ => 0
  | .Double (.Complete (some b)), k => zOf b k

/-- The Z-set of an optional batch. -/
def optZ (b : Option (List (K × R))) (k : K) : R :=
  match b with
  | none => 0
  | some l => zOf l k

/-- The Z-set the whole merging vector holds at key `k`. -/
def zsumSpine (m : List (MergeState K R)) (k : K) : R :=
  (m.map fun s => s.zslot k).sum

/-- The Z-set sum of all batches a sequence of operations inserts. -/
def insertedZ (ops : List (SpineOp K R)) (k : K) : R :=
  (ops.map fun op =>
    match op with
    | .insert b => zOf b.data k
    | .exert _ => 0).sum

/-- The spine invariant behind panic freedom: below every `Double` slot
at index `k`, the `smaller` weight (as `tidy_layers` computes it) is at
most `2^(k-1)`. -/
def Inv1 (m : List (MergeState K R)) : Prop :=
  ∀ k, (getSlot m k).isDouble = true → smallerW m k ≤ 2 ^ (k - 1)

/-- No slot is a `Double`. -/
def noDoubles (m : List (MergeState K R)) : Prop :=
  ∀ k, (getSlot m k).isDouble = false

end DBSP

namespace DBSP

variable {K : Type} [LinearOrder K] {R : Type} [AddCommGroup R] [DecidableEq R]

/-- **C7, counterexample.**  The spec claims every empty batch is silently
ignored by `Spine::insert`, but line 441 runs
`assert!(batch.lower() != batch.upper())` before the emptiness check: an
empty batch whose bounds coincide (for the unit time type, both bounds the
empty antichain) panics instead of being ignored. -/
theorem claim_C7_counterexample :
    Spine.insert (Spine.new : Spine Nat Int) ⟨[], false, false⟩ = none := rfl

/-- **C7 (amended).**  For every empty batch whose lower and upper bounds
differ — as all unit-time batch constructors in the sources produce —
`Spine::insert` returns without panicking and leaves the spine unchanged:
no slot, no bound, no dirty flag is modified. -/
theorem claim_C7_empty_insert_noop (s : Spine K R) (b : SpineBatch K R)
    (hb : b.lower ≠ b.upper) (hempty : b.data.length = 0) :
    Spine.insert s b = some s := by
  rw [Spine.insert, if_neg hb, if_pos hempty]

/-- **C7, witness.**  A canonical empty batch (`lower = {()}`,
`upper = {}`) inserted into a fresh spine is ignored. -/
theorem claim_C7_witness :
    Spine.insert (Spine.new : Spine Nat Int) ⟨[], true, false⟩ =
      some Spine.new :=
  claim_C7_empty_insert_noop _ _ (by decide) (by decide)

end DBSP

namespace DBSP

/-! ### List-access toolkit for the spine proofs -/

theorem getD_set_self {α : Type} (l : List α) (i : Nat) (a d : α)
    (h : i < l.length) : (l.set i a).getD i d = a := by
  induction l generalizing i with
  | nil => simp at h
  | cons x t ih =>
    cases i with
    | zero => rfl
    | succ j =>
      simp only [List.set, List.getD, List.getElem?_cons_succ]
      have := ih j (by simpa using h)
      simpa [List.getD] using this

theorem getD_set_other {α : Type} (l : List α) (i j : Nat) (a d : α)
    (h : i ≠ j) : (l.set i a).getD j d = l.getD j d := by
  induction l generalizing i j with
  | nil => rfl
  | cons x t ih =>
    cases i with
    | zero =>
      cases j with
      | zero => exact absurd rfl h
      | succ j' => rfl
    | succ i' =>
      cases j with
      | zero => rfl
      | succ j' =>
        simp only [List.set, List.getD, List.getElem?_cons_succ]
        have := ih i' j' (fun hc => h (by rw [hc]))
        simpa [List.getD] using this

theorem getD_append_same {α : Type} (l : List α) (k i : Nat) (d : α) :
    (l ++ List.replicate k d).getD i d = l.getD i d := by
  induction l generalizing i with
  | nil =>
    simp only [List.nil_append]
    induction k generalizing i with
    | zero => rfl
    | succ k' ihk =>
      cases i with
      | zero => rfl
      | succ j =>
        simp only [List.replicate, List.getD, List.getElem?_cons_succ]
        have := ihk j
        simp only [List.getD] at this
        exact this
  | cons x t ih =>
    cases i with
    | zero => rfl
    | succ j =>
      simp only [List.cons_append, List.getD, List.getElem?_cons_succ]
      have := ih j
      simpa [List.getD] using this

theorem getD_eq_default_of_le {α : Type} (l : List α) (i : Nat) (d : α)
    (h : l.length ≤ i) : l.getD i d = d := by
  induction l generalizing i with
  | nil => rfl
  | cons x t ih =>
    cases i with
    | zero => simp at h
    | succ j =>
      simp only [List.getD, List.getElem?_cons_succ]
      have := ih j (by simpa using h)
      simpa [List.getD] using this

theorem set_of_length_le {α : Type} (l : List α) (i : Nat) (a : α)
    (h : l.length ≤ i) : l.set i a = l := by
  induction l generalizing i with
  | nil => rfl
  | cons x t ih =>
    cases i with
    | zero => simp at h
    | succ j => simp [List.set, ih j (by simpa using h)]

theorem getD_eraseIdx {α : Type} (l : List α) (j i : Nat) (d : α) :
    (l.eraseIdx j).getD i d = if i < j then l.getD i d else l.getD (i + 1) d := by
  induction l generalizing j i with
  | nil => cases j <;> simp [List.eraseIdx]
  | cons x t ih =>
    cases j with
    | zero =>
      simp only [List.eraseIdx, Nat.not_lt_zero, if_false]
      rfl
    | succ j' =>
      cases i with
      | zero => simp [List.eraseIdx, List.getD]
      | succ i' =>
        simp only [List.eraseIdx, List.getD, List.get?_cons_succ]
        have := ih j' i'
        simp only [List.getD] at this
        rw [this]
        by_cases hij : i' < j'
        · rw [if_pos hij, if_pos (by omega)]
        · rw [if_neg hij, if_neg (by omega)]

end DBSP

namespace DBSP

variable {K : Type} [LinearOrder K] {R : Type} [AddCommGroup R] [DecidableEq R]

theorem getSlot_padTo (m : List (MergeState K R)) (n i : Nat) :
    getSlot (padTo m n) i = getSlot m i :=
  getD_append_same m (n - m.length) i .Vacant

theorem length_padTo (m : List (MergeState K R)) (n : Nat) :
    (padTo m n).length = max m.length n := by
  simp only [padTo, List.length_append, List.length_replicate]
  omega

theorem getSlot_set_self (m : List (MergeState K R)) (i : Nat)
    (s : MergeState K R) (h : i < m.length) : getSlot (m.set i s) i = s :=
  getD_set_self m i s .Vacant h

theorem getSlot_set_other (m : List (MergeState K R)) (i j : Nat)
    (s : MergeState K R) (h : i ≠ j) : getSlot (m.set i s) j = getSlot m j :=
  getD_set_other m i j s .Vacant h

theorem getSlot_out (m : List (MergeState K R)) (i : Nat)
    (h : m.length ≤ i) : getSlot m i = .Vacant :=
  getD_eq_default_of_le m i .Vacant h

theorem lt_length_of_ne_vacant {m : List (MergeState K R)} {i : Nat}
    (h : getSlot m i ≠ .Vacant) : i < m.length := by
  by_contra hc
  exact h (getSlot_out m i (by omega))

theorem getSlot_eraseIdx (m : List (MergeState K R)) (j i : Nat) :
    getSlot (m.eraseIdx j) i =
      if i < j then getSlot m i else getSlot m (i + 1) :=
  getD_eraseIdx m j i .Vacant

theorem wt_single (b : Option (List (K × R))) (i : Nat) :
    (MergeState.Single b).wt i = 2 ^ i := by
  simp [MergeState.wt, Nat.shiftLeft_eq]

theorem wt_double (v : MergeVariant K R) (i : Nat) :
    (MergeState.Double v).wt i = 2 ^ (i + 1) := by
  simp [MergeState.wt, Nat.shiftLeft_eq, pow_succ]
  ring

theorem smallerWGo_succ (m : List (MergeState K R)) :
    ∀ i k, smallerWGo i m (k + 1) =
      smallerWGo i m k + (getSlot m k).wt (i + k) := by
  induction m with
  | nil =>
    intro i k
    simp [smallerWGo, getSlot, List.getD, MergeState.wt]
  | cons s rest ih =>
    intro i k
    cases k with
    | zero =>
      show s.wt i + smallerWGo (i + 1) rest 0 = 0 + (getSlot (s :: rest) 0).wt (i + 0)
      have h0 : getSlot (s :: rest) 0 = s := rfl
      rw [h0]
      cases rest <;> simp [smallerWGo]
    | succ k' =>
      show s.wt i + smallerWGo (i + 1) rest (k' + 1) =
        (s.wt i + smallerWGo (i + 1) rest k') + (getSlot (s :: rest) (k' + 1)).wt (i + (k' + 1))
      rw [ih (i + 1) k']
      have h1 : getSlot (s :: rest) (k' + 1) = getSlot rest k' := rfl
      rw [h1]
      have h2 : i + 1 + k' = i + (k' + 1) := by omega
      rw [h2, Nat.add_assoc]

theorem smallerW_succ (m : List (MergeState K R)) (k : Nat) :
    smallerW m (k + 1) = smallerW m k + (getSlot m k).wt k := by
  have := smallerWGo_succ m 0 k
  simpa [smallerW] using this

theorem smallerW_zero (m : List (MergeState K R)) : smallerW m 0 = 0 := by
  cases m <;> rfl

theorem smallerWGo_set_ge (m : List (MergeState K R)) :
    ∀ i j k s, k ≤ j → smallerWGo i (m.set j s) k = smallerWGo i m k := by
  induction m with
  | nil => intro i j k s _; rfl
  | cons x t ih =>
    intro i j k s hkj
    cases k with
    | zero => cases j <;> cases t <;> rfl
    | succ k' =>
      cases j with
      | zero => omega
      | succ j' =>
        show x.wt i + smallerWGo (i + 1) (t.set j' s) k' =
          x.wt i + smallerWGo (i + 1) t k'
        rw [ih (i + 1) j' k' s (by omega)]

theorem smallerW_set_ge (m : List (MergeState K R)) (j k : Nat)
    (s : MergeState K R) (h : k ≤ j) :
    smallerW (m.set j s) k = smallerW m k :=
  smallerWGo_set_ge m 0 j k s h

theorem smallerWGo_append_vacant (m : List (MergeState K R)) :
    ∀ i k r, smallerWGo i (m ++ List.replicate r .Vacant) k = smallerWGo i m k := by
  induction m with
  | nil =>
    intro i k r
    induction r generalizing i k with
    | zero => rfl
    | succ r' ihr =>
      cases k with
      | zero => rfl
      | succ k' =>
        show MergeState.wt .Vacant i + smallerWGo (i + 1) (List.replicate r' .Vacant) k' =
          smallerWGo i [] (k' + 1)
        have h1 : smallerWGo (i + 1) (List.replicate r' (MergeState.Vacant : MergeState K R)) k' =
            smallerWGo (i + 1) ([] : List (MergeState K R)) k' := by
          simpa using ihr (i + 1) k'
        rw [h1]
        cases k' <;> simp [smallerWGo, MergeState.wt]
  | cons x t ih =>
    intro i k r
    cases k with
    | zero => rfl
    | succ k' =>
      show x.wt i + smallerWGo (i + 1) (t ++ List.replicate r .Vacant) k' =
        x.wt i + smallerWGo (i + 1) t k'
      rw [ih (i + 1) k' r]

theorem smallerW_padTo (m : List (MergeState K R)) (n k : Nat) :
    smallerW (padTo m n) k = smallerW m k :=
  smallerWGo_append_vacant m 0 k (n - m.length)

theorem smallerWGo_eraseIdx_ge (m : List (MergeState K R)) :
    ∀ i j k, k ≤ j → smallerWGo i (m.eraseIdx j) k = smallerWGo i m k := by
  induction m with
  | nil => intro i j k _; cases j <;> rfl
  | cons x t ih =>
    intro i j k hkj
    cases k with
    | zero => cases j <;> cases t <;> simp [smallerWGo, List.eraseIdx]
    | succ k' =>
      cases j with
      | zero => omega
      | succ j' =>
        show x.wt i + smallerWGo (i + 1) (t.eraseIdx j') k' =
          x.wt i + smallerWGo (i + 1) t k'
        rw [ih (i + 1) j' k' (by omega)]

theorem smallerW_eraseIdx_ge (m : List (MergeState K R)) (j k : Nat)
    (h : k ≤ j) : smallerW (m.eraseIdx j) k = smallerW m k :=
  smallerWGo_eraseIdx_ge m 0 j k h

theorem smallerW_eq_zero (m : List (MergeState K R)) (k : Nat)
    (h : ∀ j, j < k → getSlot m j = .Vacant) : smallerW m k = 0 := by
  induction k with
  | zero => exact smallerW_zero m
  | succ k' ih =>
    rw [smallerW_succ, h k' (by omega), ih (fun j hj => h j (by omega))]
    rfl

end DBSP

namespace DBSP

variable {K : Type} [LinearOrder K] {R : Type} [AddCommGroup R] [DecidableEq R]

theorem zsumSpine_cons (s : MergeState K R) (m : List (MergeState K R))
    (k : K) : zsumSpine (s :: m) k = s.zslot k + zsumSpine m k := by
  simp [zsumSpine]

theorem zsumSpine_set (m : List (MergeState K R)) (i : Nat)
    (s : MergeState K R) (k : K) (h : i < m.length) :
    zsumSpine (m.set i s) k =
      zsumSpine m k + s.zslot k - (getSlot m i).zslot k := by
  induction m generalizing i with
  | nil => simp at h
  | cons x t ih =>
    cases i with
    | zero =>
      show zsumSpine (s :: t) k = _
      rw [zsumSpine_cons, zsumSpine_cons]
      have h0 : getSlot (x :: t) 0 = x := rfl
      rw [h0]
      abel
    | succ i' =>
      show zsumSpine (x :: t.set i' s) k = _
      rw [zsumSpine_cons, zsumSpine_cons, ih i' (by simpa using h)]
      have h1 : getSlot (x :: t) (i' + 1) = getSlot t i' := rfl
      rw [h1]
      abel

theorem zsumSpine_padTo (m : List (MergeState K R)) (n : Nat) (k : K) :
    zsumSpine (padTo m n) k = zsumSpine m k := by
  simp [padTo, zsumSpine, List.map_append, List.sum_append, List.map_replicate,
    MergeState.zslot, List.sum_replicate]

theorem zsumSpine_eraseIdx (m : List (MergeState K R)) (i : Nat) (k : K)
    (h : i < m.length) :
    zsumSpine (m.eraseIdx i) k = zsumSpine m k - (getSlot m i).zslot k := by
  induction m generalizing i with
  | nil => simp at h
  | cons x t ih =>
    cases i with
    | zero =>
      show zsumSpine t k = _
      rw [zsumSpine_cons]
      have h0 : getSlot (x :: t) 0 = x := rfl
      rw [h0]
      abel
    | succ i' =>
      show zsumSpine (x :: t.eraseIdx i') k = _
      rw [zsumSpine_cons, zsumSpine_cons, ih i' (by simpa using h)]
      have h1 : getSlot (x :: t) (i' + 1) = getSlot t i' := rfl
      rw [h1]
      abel

/-- `MergeVariant::work` on an in-progress merge: the merger pushes the
whole merge, the fuel is clamped positive, and the state completes. -/
theorem variant_work_ip (b1 b2 : List (K × R)) (fuel : Int) :
    MergeVariant.work (.InProgress b1 b2) fuel =
      (.Complete (some (mergeSimple b1 b2)),
        max (fuel - (mergeSimple b1 b2).length) 1) := by
  show (if 0 < max (fuel - ((mergeSimple b1 b2).length : Int)) 1 then _ else _) = _
  rw [if_pos (lt_of_lt_of_le one_pos (le_max_right _ _))]

theorem variant_complete_ip (b1 b2 : List (K × R)) :
    MergeVariant.complete (.InProgress b1 b2) = some (mergeSimple b1 b2) := by
  rw [MergeVariant.complete, variant_work_ip]

theorem variant_complete_cmp (b : Option (List (K × R))) :
    MergeVariant.complete (.Complete b : MergeVariant K R) = b := rfl

theorem work_fst_isDouble (s : MergeState K R) (fuel : Int) :
    ((s.work fuel).1).isDouble = s.isDouble := by
  cases s with
  | Double v =>
    cases v with
    | InProgress b1 b2 =>
      show ((MergeState.Double (MergeVariant.work (.InProgress b1 b2) fuel).1)).isDouble = _
      rw [variant_work_ip]
      rfl
    | Complete b => rfl
  | Vacant => rfl
  | Single b => rfl

theorem work_fst_isComplete (s : MergeState K R) (fuel : Int) :
    ((s.work fuel).1).isComplete = s.isDouble := by
  cases s with
  | Double v =>
    cases v with
    | InProgress b1 b2 =>
      show ((MergeState.Double (MergeVariant.work (.InProgress b1 b2) fuel).1)).isComplete = _
      rw [variant_work_ip]
      rfl
    | Complete b => rfl
  | Vacant => rfl
  | Single b => rfl

theorem zslot_single (b : Option (List (K × R))) (k : K) :
    (MergeState.Single b).zslot k = optZ b k := by
  cases b <;> rfl

theorem work_fst_zslot (s : MergeState K R) (fuel : Int) (k : K) :
    ((s.work fuel).1).zslot k = s.zslot k := by
  cases s with
  | Double v =>
    cases v with
    | InProgress b1 b2 =>
      show ((MergeState.Double (MergeVariant.work (.InProgress b1 b2) fuel).1)).zslot k = _
      rw [variant_work_ip]
      show zOf (mergeSimple b1 b2) k = zOf b1 k + zOf b2 k
      exact zOf_mergeSimple b1 b2 k
    | Complete b => rfl
  | Vacant => rfl
  | Single b => rfl

theorem zslot_complete (s : MergeState K R) (k : K) :
    optZ s.complete k = s.zslot k := by
  cases s with
  | Vacant => rfl
  | Single b => cases b <;> rfl
  | Double v =>
    cases v with
    | InProgress b1 b2 =>
      show optZ (MergeVariant.complete (.InProgress b1 b2)) k = _
      rw [variant_complete_ip]
      show zOf (mergeSimple b1 b2) k = zOf b1 k + zOf b2 k
      exact zOf_mergeSimple b1 b2 k
    | Complete b => cases b <;> rfl

theorem zslot_begin_merge (a b : Option (List (K × R))) (k : K) :
    (MergeState.begin_merge a b).zslot k = optZ a k + optZ b k := by
  cases a <;> cases b <;> simp [MergeState.begin_merge, MergeState.zslot, optZ]

theorem begin_merge_isDouble (a b : Option (List (K × R))) :
    (MergeState.begin_merge a b : MergeState K R).isDouble = true := by
  cases a <;> cases b <;> rfl

theorem isDouble_exists {s : MergeState K R} (h : s.isDouble = true) :
    ∃ v, s = .Double v := by
  cases s with
  | Double v => exact ⟨v, rfl⟩
  | Vacant => simp [MergeState.isDouble] at h
  | Single b => simp [MergeState.isDouble] at h

/-- Combined behaviour of `insert_at` on a non-`Double` slot. -/
theorem insert_at_spec (m : List (MergeState K R))
    (b : Option (List (K × R))) (i : Nat)
    (h : (getSlot m i).isDouble = false) :
    ∃ m', insert_at m b i = some m' ∧
      (∀ j, j ≠ i → getSlot m' j = getSlot m j) ∧
      ((getSlot m i = .Vacant ∧ getSlot m' i = .Single b) ∨
        (∃ old, getSlot m i = .Single old ∧
          getSlot m' i = MergeState.begin_merge old b)) ∧
      (∀ k, zsumSpine m' k = zsumSpine m k + optZ b k) := by
  have hpad : i < (padTo m (i + 1)).length := by
    rw [length_padTo]; omega
  cases hs : getSlot m i with
  | Vacant =>
    refine ⟨(padTo m (i + 1)).set i (.Single b), ?_, ?_, ?_, ?_⟩
    · simp only [insert_at, getSlot_padTo, hs]
    · intro j hj
      rw [getSlot_set_other _ _ _ _ (fun hc => hj hc.symm), getSlot_padTo]
    · exact Or.inl ⟨rfl, getSlot_set_self _ _ _ hpad⟩
    · intro k
      rw [zsumSpine_set _ _ _ _ hpad, zsumSpine_padTo, getSlot_padTo, hs,
        zslot_single]
      show zsumSpine m k + optZ b k - 0 = _
      abel
  | Single old =>
    refine ⟨(padTo m (i + 1)).set i (MergeState.begin_merge old b), ?_, ?_, ?_, ?_⟩
    · simp only [insert_at, getSlot_padTo, hs]
    · intro j hj
      rw [getSlot_set_other _ _ _ _ (fun hc => hj hc.symm), getSlot_padTo]
    · exact Or.inr ⟨old, rfl, getSlot_set_self _ _ _ hpad⟩
    · intro k
      rw [zsumSpine_set _ _ _ _ hpad, zsumSpine_padTo, getSlot_padTo, hs,
        zslot_begin_merge, zslot_single]
      abel
  | Double v => rw [hs] at h; simp [MergeState.isDouble] at h

theorem insert_at_none_of_double (m : List (MergeState K R))
    (b : Option (List (K × R))) (i : Nat)
    (h : (getSlot m i).isDouble = true) : insert_at m b i = none := by
  obtain ⟨v, hv⟩ := isDouble_exists h
  simp only [insert_at, getSlot_padTo, hv]

/-- Behaviour of `complete_at` at an in-range slot. -/
theorem complete_at_spec (m : List (MergeState K R)) (i : Nat)
    (h : i < m.length) :
    (∀ j, j ≠ i → getSlot (complete_at m i).2 j = getSlot m j) ∧
    getSlot (complete_at m i).2 i = .Vacant ∧
    (∀ k, zsumSpine (complete_at m i).2 k =
      zsumSpine m k - optZ (complete_at m i).1 k) := by
  refine ⟨?_, ?_, ?_⟩
  · intro j hj
    exact getSlot_set_other _ _ _ _ (fun hc => hj hc.symm)
  · exact getSlot_set_self _ _ _ h
  · intro k
    show zsumSpine (m.set i .Vacant) k = _
    rw [zsumSpine_set _ _ _ _ h]
    show zsumSpine m k + 0 - (getSlot m i).zslot k =
      zsumSpine m k - optZ ((getSlot m i).complete) k
    rw [zslot_complete]
    abel

/-- Behaviour of the per-slot `work` step of `apply_fuel`. -/
theorem work_at_spec (m : List (MergeState K R)) (i : Nat) (fuel : Int) :
    getSlot (work_at m i fuel) i = ((getSlot m i).work fuel).1 ∧
    (∀ j, j ≠ i → getSlot (work_at m i fuel) j = getSlot m j) ∧
    (∀ k, zsumSpine (work_at m i fuel) k = zsumSpine m k) := by
  by_cases h : i < m.length
  · refine ⟨getSlot_set_self _ _ _ h, ?_, ?_⟩
    · intro j hj
      exact getSlot_set_other _ _ _ _ (fun hc => hj hc.symm)
    · intro k
      show zsumSpine (m.set i _) k = _
      rw [zsumSpine_set _ _ _ _ h, work_fst_zslot]
      abel
  · have hout : getSlot m i = .Vacant := getSlot_out m i (by omega)
    have heq : work_at m i fuel = m := by
      show m.set i _ = m
      exact set_of_length_le m i _ (by omega)
    rw [heq, hout]
    exact ⟨rfl, fun _ _ => rfl, fun _ => rfl⟩

end DBSP

namespace DBSP

variable {K : Type} [LinearOrder K] {R : Type} [AddCommGroup R] [DecidableEq R]

theorem length_work_at (m : List (MergeState K R)) (i : Nat) (fuel : Int) :
    (work_at m i fuel).length = m.length := by
  simp [work_at]

/-- The `apply_fuel` loop invariant: processing index `index` with the
slots above untouched, the slots below free of `Double`s, and — when the
current slot is a `Double` (original or cascade-formed) — the original
weights up to it summing to at least `2^(index+1)`.  Under `Inv1` of the
original vector the loop never panics, and it ends with no `Double`
anywhere, preserving the Z-set. -/
theorem apply_fuel_go_spec (fuel : Int) (orig : List (MergeState K R))
    (hInv : Inv1 orig) :
    ∀ steps index m,
      orig.length ≤ index + steps →
      (∀ j, index < j → getSlot m j = getSlot orig j) →
      (∀ j, j < index → (getSlot m j).isDouble = false) →
      ((getSlot m index).isDouble = true →
        2 ^ (index + 1) ≤ smallerW orig (index + 1) ∧ index < orig.length) →
      ∃ m', apply_fuel_go fuel steps index m = some m' ∧
        (∀ j, (getSlot m' j).isDouble = false) ∧
        (∀ k, zsumSpine m' k = zsumSpine m k) := by
  intro steps
  induction steps with
  | zero =>
    intro index m hlen hA hB hC
    refine ⟨m, rfl, ?_, fun _ => rfl⟩
    intro j
    rcases lt_trichotomy j index with hj | hj | hj
    · exact hB j hj
    · subst hj
      by_contra hc
      rw [Bool.not_eq_false] at hc
      have := (hC hc).2
      omega
    · rw [hA j hj, getSlot_out orig j (by omega)]
      rfl
  | succ steps ih =>
    intro index m hlen hA hB hC
    obtain ⟨hw_self, hw_other, hw_zsum⟩ := work_at_spec m index fuel
    have hcond : (getSlot (work_at m index fuel) index).isComplete =
        (getSlot m index).isDouble := by
      rw [hw_self, work_fst_isComplete]
    by_cases hd : (getSlot m index).isDouble = true
    · -- the slot is a double: it completes and deposits at index + 1
      obtain ⟨hbound, hlt⟩ := hC hd
      have hlt1 : index < (work_at m index fuel).length := by
        rw [length_work_at]
        refine lt_length_of_ne_vacant (m := m) (i := index) ?_
        intro hcon
        rw [hcon] at hd
        simp [MergeState.isDouble] at hd
      obtain ⟨hc_other, hc_self, hc_zsum⟩ :=
        complete_at_spec (work_at m index fuel) index hlt1
      -- the deposit target is the untouched original slot above
      have htarget : getSlot (complete_at (work_at m index fuel) index).2 (index + 1) =
          getSlot orig (index + 1) := by
        rw [hc_other _ (by omega), hw_other _ (by omega), hA _ (by omega)]
      have htnd : (getSlot orig (index + 1)).isDouble = false := by
        by_contra hcd
        rw [Bool.not_eq_false] at hcd
        have h1 := hInv (index + 1) hcd
        have h2 : index + 1 - 1 = index := by omega
        rw [h2] at h1
        have hp : (2 : Nat) ^ (index + 1) = 2 * 2 ^ index := by ring
        have hpos : 0 < (2 : Nat) ^ index := pow_pos (by norm_num) index
        omega
      obtain ⟨m3, hins, hins_other, hins_shape, hins_zsum⟩ :=
        insert_at_spec (complete_at (work_at m index fuel) index).2
          ((getSlot (work_at m index fuel) index).complete) (index + 1)
          (by rw [htarget]; exact htnd)
      -- run the remaining steps from m3
      have hrec := ih (index + 1) m3 (by omega)
        (fun j hj => by
          rw [hins_other _ (by omega), hc_other _ (by omega),
            hw_other _ (by omega), hA _ (by omega)])
        (fun j hj => by
          rcases lt_trichotomy j index with hj' | hj' | hj'
          · rw [hins_other _ (by omega), hc_other _ (by omega),
              hw_other _ (by omega)]
            exact hB j hj'
          · subst hj'
            rw [hins_other _ (by omega), hc_self]
            rfl
          · omega)
        (by
          intro hcd
          rcases hins_shape with ⟨_, hres⟩ | ⟨old, hold, hres⟩
          · rw [hres] at hcd
            simp [MergeState.isDouble] at hcd
          · have horigS : getSlot orig (index + 1) = .Single old := by
              rw [← htarget]; exact hold
            constructor
            · rw [smallerW_succ, horigS, wt_single]
              have hp : (2 : Nat) ^ (index + 1 + 1) =
                  2 ^ (index + 1) + 2 ^ (index + 1) := by ring
              omega
            · refine lt_length_of_ne_vacant (m := orig) (i := index + 1) ?_
              rw [horigS]
              intro hcon
              cases hcon)
      obtain ⟨m', hrun, hnd', hz'⟩ := hrec
      refine ⟨m', ?_, hnd', ?_⟩
      · -- reduce one unfolding of the loop
        show apply_fuel_go fuel (steps + 1) index m = some m'
        rw [apply_fuel_go]
        rw [hcond, hd]
        simp only [if_true]
        have hfst2 : (complete_at (work_at m index fuel) index).1 =
            (getSlot (work_at m index fuel) index).complete := rfl
        rw [hfst2, hins]
        exact hrun
      · intro k
        have hfst : (complete_at (work_at m index fuel) index).1 =
            (getSlot (work_at m index fuel) index).complete := rfl
        rw [hz' k, hins_zsum k, hc_zsum k, hw_zsum k, hfst]
        abel
    · -- the slot is not a double: nothing completes, move on
      have hdf : (getSlot m index).isDouble = false := by
        rw [Bool.not_eq_true] at hd; exact hd
      have hrec := ih (index + 1) (work_at m index fuel) (by omega)
        (fun j hj => by rw [hw_other _ (by omega), hA _ (by omega)])
        (fun j hj => by
          rcases lt_trichotomy j index with hj' | hj' | hj'
          · rw [hw_other _ (by omega)]; exact hB j hj'
          · subst hj'
            rw [hw_self, work_fst_isDouble]
            exact hdf
          · omega)
        (by
          intro hcd
          rw [hw_other _ (by omega), hA _ (by omega)] at hcd
          constructor
          · rw [smallerW_succ]
            obtain ⟨v, hv⟩ := isDouble_exists hcd
            rw [hv, wt_double]
            exact Nat.le_add_left _ _
          · refine lt_length_of_ne_vacant (m := orig) (i := index + 1) ?_
            intro hcon
            rw [hcon] at hcd
            simp [MergeState.isDouble] at hcd)
      obtain ⟨m', hrun, hnd', hz'⟩ := hrec
      refine ⟨m', ?_, hnd', ?_⟩
      · show apply_fuel_go fuel (steps + 1) index m = some m'
        rw [apply_fuel_go]
        rw [hcond, hdf]
        simp only [Bool.false_eq_true, if_false]
        exact hrun
      · intro k
        rw [hz' k, hw_zsum k]

/-- `apply_fuel` from any state satisfying the spine invariant succeeds,
eliminates every `Double` slot and preserves the Z-set. -/
theorem apply_fuel_spec (fuel : Int) (m : List (MergeState K R))
    (hInv : Inv1 m) :
    ∃ m', apply_fuel fuel m = some m' ∧ noDoubles m' ∧
      (∀ k, zsumSpine m' k = zsumSpine m k) := by
  have h := apply_fuel_go_spec fuel m hInv m.length 0 m (by omega)
    (fun j _ => rfl) (fun j hj => by omega)
    (by
      intro hcd
      constructor
      · rw [smallerW_succ, smallerW_zero]
        obtain ⟨v, hv⟩ := isDouble_exists hcd
        rw [hv, wt_double]
        omega
      · refine lt_length_of_ne_vacant (m := m) (i := 0) ?_
        intro hcon
        rw [hcon] at hcd
        simp [MergeState.isDouble] at hcd)
  obtain ⟨m', hrun, hnd, hz⟩ := h
  exact ⟨m', hrun, hnd, hz⟩

end DBSP

namespace DBSP

variable {K : Type} [LinearOrder K] {R : Type} [AddCommGroup R] [DecidableEq R]

theorem isVacant_eq_true {s : MergeState K R} (h : s.isVacant = true) :
    s = .Vacant := by
  cases s with
  | Vacant => rfl
  | Single b => simp [MergeState.isVacant] at h
  | Double v => simp [MergeState.isVacant] at h

theorem vacant_of_take_any_false (m : List (MergeState K R)) (idx j : Nat)
    (h : (m.take idx).any (fun s => !s.isVacant) = false) (hj : j < idx) :
    getSlot m j = .Vacant := by
  by_cases hlen : j < m.length
  · have hjt : j < (m.take idx).length := by
      rw [List.length_take]; omega
    have hmem : (m.take idx)[j] ∈ m.take idx := List.getElem_mem hjt
    have := (List.any_eq_false.mp h) _ hmem
    have hv : (m.take idx)[j] = .Vacant := by
      apply isVacant_eq_true
      cases hb : ((m.take idx)[j] : MergeState K R).isVacant with
      | true => rfl
      | false => rw [hb] at this; simp at this
    have hgt : (m.take idx)[j] = m[j] := List.getElem_take ..
    have hgs : getSlot m j = m[j] := List.getD_eq_getElem m .Vacant hlen
    rw [hgs, ← hgt, hv]
  · exact getSlot_out m j (by omega)

/-- The `roll_up` loop: starting at `i` with the slots below `i` vacant
and no `Double` anywhere, it completes each of the next `steps` slots
into the running merge, leaving them vacant, touching nothing above, and
conserving the Z-set (state plus running merge). -/
theorem roll_up_go_spec :
    ∀ (steps i : Nat) (merged : Option (List (K × R)))
      (m : List (MergeState K R)),
      (∀ j, (getSlot m j).isDouble = false) →
      (∀ j, j < i → getSlot m j = .Vacant) →
      ∃ merged' m', roll_up_go steps i merged m = some (merged', m') ∧
        (∀ j, (getSlot m' j).isDouble = false) ∧
        (∀ j, j < i + steps → getSlot m' j = .Vacant) ∧
        (∀ j, i + steps ≤ j → getSlot m' j = getSlot m j) ∧
        (∀ k, zsumSpine m' k + optZ merged' k =
          zsumSpine m k + optZ merged k) := by
  intro steps
  induction steps with
  | zero =>
    intro i merged m hnd hvac
    exact ⟨merged, m, rfl, hnd, fun j hj => hvac j (by omega),
      fun j _ => rfl, fun k => rfl⟩
  | succ steps ih =>
    intro i merged m hnd hvac
    obtain ⟨m1, hins, hins_other, hins_shape, hins_zsum⟩ :=
      insert_at_spec m merged i (hnd i)
    have hne : getSlot m1 i ≠ .Vacant := by
      rcases hins_shape with ⟨_, hres⟩ | ⟨old, _, hres⟩
      · rw [hres]; intro hcon; cases hcon
      · rw [hres]
        obtain ⟨v, hv⟩ := isDouble_exists (begin_merge_isDouble old merged)
        rw [hv]; intro hcon; cases hcon
    have hlt1 : i < m1.length := lt_length_of_ne_vacant hne
    obtain ⟨hc_other, hc_self, hc_zsum⟩ := complete_at_spec m1 i hlt1
    have hrec := ih (i + 1) (complete_at m1 i).1 (complete_at m1 i).2
      (fun j => by
        rcases eq_or_ne j i with hj | hj
        · subst hj; rw [hc_self]; rfl
        · rw [hc_other _ hj]
          rcases eq_or_ne j i with hj' | hj'
          · omega
          · rw [hins_other _ hj']; exact hnd j)
      (fun j hj => by
        rcases eq_or_ne j i with hj' | hj'
        · subst hj'; exact hc_self
        · rw [hc_other _ hj', hins_other _ hj']
          exact hvac j (by omega))
    obtain ⟨merged', m', hrun, hnd', hvac', hunch', hz'⟩ := hrec
    refine ⟨merged', m', ?_, hnd', ?_, ?_, ?_⟩
    · rw [roll_up_go, hins]
      exact hrun
    · intro j hj
      exact hvac' j (by omega)
    · intro j hj
      rw [hunch' j (by omega), hc_other _ (by omega), hins_other _ (by omega)]
    · intro k
      have h1 := hz' k
      rw [hc_zsum k, hins_zsum k] at h1
      rw [h1]
      abel

/-- `roll_up` from a `Double`-free state: it succeeds, leaves the slots
below `index` vacant, `index` itself not a `Double`, everything above
`index + 1` `Double`-free, any new `Double` at `index + 1` only with
slot `index` vacant, and conserves the Z-set. -/
theorem roll_up_spec (m : List (MergeState K R)) (index : Nat)
    (hnd : ∀ j, (getSlot m j).isDouble = false) :
    ∃ m', roll_up m index = some m' ∧
      (∀ j, j < index → getSlot m' j = .Vacant) ∧
      (getSlot m' index).isDouble = false ∧
      (∀ j, index + 1 < j → (getSlot m' j).isDouble = false) ∧
      ((getSlot m' (index + 1)).isDouble = true →
        getSlot m' index = .Vacant) ∧
      (∀ k, zsumSpine m' k = zsumSpine m k) := by
  have hmp_get : ∀ j, getSlot (padTo m (index + 1)) j = getSlot m j :=
    fun j => getSlot_padTo m (index + 1) j
  have hmp_nd : ∀ j, (getSlot (padTo m (index + 1)) j).isDouble = false :=
    fun j => by rw [hmp_get j]; exact hnd j
  by_cases hany :
      ((padTo m (index + 1)).take index).any (fun s => !s.isVacant) = true
  · -- some lower slot is occupied: run the loop
    obtain ⟨merged', m1, hgo, hnd1, hvac1, hunch1, hz1⟩ :=
      roll_up_go_spec index 0 none (padTo m (index + 1)) hmp_nd
        (fun j hj => by omega)
    obtain ⟨m2, hins, hins_other, hins_shape, hins_zsum⟩ :=
      insert_at_spec m1 merged' index (hnd1 index)
    have hm2_above : ∀ j, index < j → getSlot m2 j = getSlot m j := by
      intro j hj
      rw [hins_other _ (by omega), hunch1 j (by omega), hmp_get]
    rcases hins_shape with ⟨hv1, hres⟩ | ⟨old, hold, hres⟩
    · -- slot `index` was vacant: no new merge begins
      refine ⟨m2, ?_, ?_, ?_, ?_, ?_, ?_⟩
      · have hdm2 : (getSlot m2 index).isDouble = false := by
          rw [hres]; rfl
        simp only [roll_up, hany, eq_self_iff_true, if_true, hgo, hins, hdm2,
          Bool.false_eq_true, if_false]
      · intro j hj
        rw [hins_other _ (by omega)]
        exact hvac1 j (by omega)
      · rw [hres]; rfl
      · intro j hj
        rw [hm2_above j (by omega)]
        exact hnd j
      · intro hcd
        rw [hm2_above (index + 1) (by omega)] at hcd
        rw [hnd (index + 1)] at hcd
        cases hcd
      · intro k
        have h1 := hz1 k
        rw [hins_zsum k, zsumSpine_padTo] at *
        show zsumSpine m1 k + optZ merged' k = zsumSpine m k
        rw [h1]
        show zsumSpine m k + optZ none k = zsumSpine m k
        rw [show optZ (none : Option (List (K × R))) k = 0 from rfl]
        abel
    · -- slot `index` held a single: the insertion begins a merge that is
      -- completed at once and pushed to `index + 1`
      have hdm2 : (getSlot m2 index).isDouble = true := by
        rw [hres]; exact begin_merge_isDouble old merged'
      have hlt2 : index < m2.length := by
        refine lt_length_of_ne_vacant (m := m2) (i := index) ?_
        intro hcon
        rw [hcon] at hdm2
        cases hdm2
      obtain ⟨hc_other, hc_self, hc_zsum⟩ := complete_at_spec m2 index hlt2
      have htgt : getSlot (complete_at m2 index).2 (index + 1) =
          getSlot m (index + 1) := by
        rw [hc_other _ (by omega), hm2_above (index + 1) (by omega)]
      obtain ⟨m4, hins4, hins4_other, hins4_shape, hins4_zsum⟩ :=
        insert_at_spec (complete_at m2 index).2 (complete_at m2 index).1
          (index + 1) (by rw [htgt]; exact hnd (index + 1))
      refine ⟨m4, ?_, ?_, ?_, ?_, ?_, ?_⟩
      · simp only [roll_up, hany, eq_self_iff_true, if_true, hgo, hins, hdm2]
        exact hins4
      · intro j hj
        rw [hins4_other _ (by omega), hc_other _ (by omega),
          hins_other _ (by omega)]
        exact hvac1 j (by omega)
      · rw [hins4_other _ (by omega), hc_self]
        rfl
      · intro j hj
        rw [hins4_other _ (by omega), hc_other _ (by omega),
          hm2_above j (by omega)]
        exact hnd j
      · intro _
        rw [hins4_other _ (by omega), hc_self]
      · intro k
        have h1 := hz1 k
        rw [zsumSpine_padTo] at h1
        have h4 := hins4_zsum k
        rw [hc_zsum k] at h4
        rw [h4, hins_zsum k, h1]
        have hz0 : optZ (none : Option (List (K × R))) k = (0 : R) := rfl
        rw [hz0]
        abel
  · -- all lower slots vacant: nothing to roll up
    have hany' : ((padTo m (index + 1)).take index).any
        (fun s => !s.isVacant) = false := by
      cases hb : ((padTo m (index + 1)).take index).any (fun s => !s.isVacant) with
      | true => exact absurd hb hany
      | false => rfl
    refine ⟨padTo m (index + 1), ?_, ?_, ?_, ?_, ?_, ?_⟩
    · simp only [roll_up]
      rw [hany']
      simp only [Bool.false_eq_true, if_false]
    · intro j hj
      exact vacant_of_take_any_false _ index j hany' hj
    · exact hmp_nd index
    · intro j _
      exact hmp_nd j
    · intro hcd
      rw [hmp_get (index + 1), hnd (index + 1)] at hcd
      cases hcd
    · intro k
      exact zsumSpine_padTo m (index + 1) k

end DBSP

namespace DBSP

variable {K : Type} [LinearOrder K] {R : Type} [AddCommGroup R] [DecidableEq R]

theorem length_eraseIdx_lt {α : Type} (l : List α) (i : Nat)
    (h : i < l.length) : (l.eraseIdx i).length = l.length - 1 := by
  induction l generalizing i with
  | nil => simp at h
  | cons x t ih =>
    cases i with
    | zero => simp [List.eraseIdx]
    | succ i' =>
      show (x :: t.eraseIdx i').length = _
      simp only [List.length_cons]
      rw [ih i' (by simpa using h)]
      have h2 : i' < t.length := by simpa using h
      omega

theorem isSingle_exists {s : MergeState K R} (h : s.isSingle = true) :
    ∃ b, s = .Single b := by
  cases s with
  | Single b => exact ⟨b, rfl⟩
  | Vacant => simp [MergeState.isSingle] at h
  | Double v => simp [MergeState.isSingle] at h

theorem smallerW_congr (m1 m2 : List (MergeState K R)) (k : Nat)
    (h : ∀ j, j < k → getSlot m1 j = getSlot m2 j) :
    smallerW m1 k = smallerW m2 k := by
  induction k with
  | zero => rw [smallerW_zero, smallerW_zero]
  | succ k ih =>
    rw [smallerW_succ, smallerW_succ, h k (by omega),
      ih (fun j hj => h j (by omega))]

theorem Inv1_of_noDoubles {m : List (MergeState K R)} (h : noDoubles m) :
    Inv1 m := by
  intro k hk
  rw [h k] at hk
  cases hk

theorem Inv1_eraseIdx (m : List (MergeState K R)) (j : Nat)
    (hInv : Inv1 m)
    (hnd : ∀ i, j ≤ i → (getSlot m i).isDouble = false) :
    Inv1 (m.eraseIdx j) := by
  intro k hk
  rw [getSlot_eraseIdx] at hk
  by_cases hkj : k < j
  · rw [if_pos hkj] at hk
    rw [smallerW_eraseIdx_ge m j k (by omega)]
    exact hInv k hk
  · rw [if_neg hkj] at hk
    rw [hnd (k + 1) (by omega)] at hk
    cases hk

theorem shl_div_eight_le (L : Nat) : (1 <<< L) / 8 ≤ 2 ^ (L - 2 - 1) := by
  rw [Nat.shiftLeft_eq, one_mul]
  rcases Nat.lt_or_ge L 3 with h | h
  · interval_cases L <;> simp
  · have h8 : (8 : Nat) = 2 ^ 3 := by norm_num
    rw [h8, Nat.pow_div h (by norm_num)]
    have h3 : L - 3 = L - 2 - 1 := by omega
    rw [h3]

/-- The `tidy_layers` loop preserves the spine invariant and the Z-set
and never panics: its only `insert_at` targets the single top batch. -/
theorem tidy_go_spec (app : Nat) :
    ∀ budget (m : List (MergeState K R)),
      Inv1 m → (getSlot m (m.length - 1)).isSingle = true → 0 < m.length →
      ∃ m', tidy_go app budget m = some m' ∧ Inv1 m' ∧
        (∀ k, zsumSpine m' k = zsumSpine m k) := by
  intro budget
  induction budget with
  | zero =>
    intro m hInv _ _
    exact ⟨m, rfl, hInv, fun _ => rfl⟩
  | succ budget ih =>
    intro m hInv htop hpos
    by_cases hc : app < m.length - 1
    · have hlen2 : 2 ≤ m.length := by omega
      have htopnd : (getSlot m (m.length - 1)).isDouble = false := by
        obtain ⟨b, hb⟩ := isSingle_exists htop
        rw [hb]; rfl
      have htoppos : m.length - 2 < m.length := by omega
      have herase_len : (m.eraseIdx (m.length - 2)).length = m.length - 1 :=
        length_eraseIdx_lt m (m.length - 2) htoppos
      have herase_top : getSlot (m.eraseIdx (m.length - 2))
          ((m.eraseIdx (m.length - 2)).length - 1) =
          getSlot m (m.length - 1) := by
        rw [herase_len, getSlot_eraseIdx, if_neg (by omega)]
        have : m.length - 1 - 1 + 1 = m.length - 1 := by omega
        rw [this]
      cases hslot : getSlot m (m.length - 2) with
      | Vacant =>
        have hInv' : Inv1 (m.eraseIdx (m.length - 2)) := by
          refine Inv1_eraseIdx m _ hInv ?_
          intro i hi
          rcases Nat.lt_or_ge i m.length with hil | hil
          · have : i = m.length - 2 ∨ i = m.length - 1 := by omega
            rcases this with h | h
            · rw [h, hslot]; rfl
            · rw [h]; exact htopnd
          · rw [getSlot_out m i hil]; rfl
        obtain ⟨m', heq, hInv'', hz⟩ := ih (m.eraseIdx (m.length - 2)) hInv'
          (by rw [herase_top]; exact htop) (by omega)
        refine ⟨m', ?_, hInv'', ?_⟩
        · simp only [tidy_go]
          rw [if_pos hc]
          simp only [hslot]
          exact heq
        · intro k
          rw [hz k, zsumSpine_eraseIdx m _ k htoppos, hslot]
          show zsumSpine m k - 0 = zsumSpine m k
          abel
      | Single b =>
        cases b with
        | none =>
          have hInv' : Inv1 (m.eraseIdx (m.length - 2)) := by
            refine Inv1_eraseIdx m _ hInv ?_
            intro i hi
            rcases Nat.lt_or_ge i m.length with hil | hil
            · have : i = m.length - 2 ∨ i = m.length - 1 := by omega
              rcases this with h | h
              · rw [h, hslot]; rfl
              · rw [h]; exact htopnd
            · rw [getSlot_out m i hil]; rfl
          obtain ⟨m', heq, hInv'', hz⟩ := ih (m.eraseIdx (m.length - 2)) hInv'
            (by rw [herase_top]; exact htop) (by omega)
          refine ⟨m', ?_, hInv'', ?_⟩
          · simp only [tidy_go]
            rw [if_pos hc]
            simp only [hslot]
            exact heq
          · intro k
            rw [hz k, zsumSpine_eraseIdx m _ k htoppos, hslot]
            show zsumSpine m k - 0 = zsumSpine m k
            abel
        | some batch =>
          by_cases hsm : smallerW m (m.length - 2) ≤ (1 <<< m.length) / 8
          · -- the blocker merges with the (single) top batch
            obtain ⟨tb, htb⟩ := isSingle_exists htop
            have hme_top : getSlot (m.eraseIdx (m.length - 2)) (m.length - 2) =
                .Single tb := by
              rw [getSlot_eraseIdx, if_neg (by omega)]
              have : m.length - 2 + 1 = m.length - 1 := by omega
              rw [this, ← htb]
            obtain ⟨m'', hins, hins_other, hins_shape, hins_zsum⟩ :=
              insert_at_spec (m.eraseIdx (m.length - 2)) (some batch)
                (m.length - 2) (by rw [hme_top]; rfl)
            refine ⟨m'', ?_, ?_, ?_⟩
            · simp only [tidy_go]
              rw [if_pos hc]
              simp only [hslot]
              rw [if_pos hsm]
              exact hins
            · intro k hk
              rcases lt_trichotomy k (m.length - 2) with hk2 | hk2 | hk2
              · rw [hins_other _ (by omega), getSlot_eraseIdx,
                  if_pos (by omega)] at hk
                have hb := hInv k hk
                have hs1 : smallerW m'' k = smallerW (m.eraseIdx (m.length - 2)) k :=
                  smallerW_congr _ _ _ (fun j hj => hins_other j (by omega))
                rw [hs1, smallerW_eraseIdx_ge m _ k (by omega)]
                exact hb
              · subst hk2
                have hs1 : smallerW m'' (m.length - 2) =
                    smallerW (m.eraseIdx (m.length - 2)) (m.length - 2) :=
                  smallerW_congr _ _ _ (fun j hj => hins_other j (by omega))
                rw [hs1, smallerW_eraseIdx_ge m _ _ (by omega)]
                exact le_trans hsm (shl_div_eight_le m.length)
              · rw [hins_other _ (by omega)] at hk
                have hout : getSlot (m.eraseIdx (m.length - 2)) k = .Vacant := by
                  apply getSlot_out
                  rw [herase_len]
                  omega
                rw [hout] at hk
                cases hk
            · intro k
              rw [hins_zsum k, zsumSpine_eraseIdx m _ k htoppos, hslot]
              show zsumSpine m k - zOf batch k + zOf batch k = zsumSpine m k
              abel
          · refine ⟨m, ?_, hInv, fun _ => rfl⟩
            simp only [tidy_go]
            rw [if_pos hc]
            simp only [hslot]
            rw [if_neg hsm]
      | Double v =>
        refine ⟨m, ?_, hInv, fun _ => rfl⟩
        simp only [tidy_go]
        rw [if_pos hc]
        simp only [hslot]
    · refine ⟨m, ?_, hInv, fun _ => rfl⟩
      simp only [tidy_go]
      rw [if_neg hc]

/-- `tidy_layers` preserves the spine invariant and the Z-set and never
panics. -/
theorem tidy_layers_spec (m : List (MergeState K R)) (hInv : Inv1 m) :
    ∃ m', tidy_layers m = some m' ∧ Inv1 m' ∧
      (∀ k, zsumSpine m' k = zsumSpine m k) := by
  by_cases h0 : m.length = 0
  · refine ⟨m, ?_, hInv, fun _ => rfl⟩
    simp only [tidy_layers]
    rw [if_pos h0]
  · by_cases hsing : (getSlot m (m.length - 1)).isSingle = true
    · obtain ⟨m', heq, hInv', hz⟩ :=
        tidy_go_spec (levelOf (getSlot m (m.length - 1)).len) m.length m hInv
          hsing (by omega)
      refine ⟨m', ?_, hInv', hz⟩
      simp only [tidy_layers]
      rw [if_neg h0]
      simp only [hsing, if_true]
      exact heq
    · have hsing' : (getSlot m (m.length - 1)).isSingle = false := by
        cases hb : (getSlot m (m.length - 1)).isSingle with
        | true => exact absurd hb hsing
        | false => rfl
      refine ⟨m, ?_, hInv, fun _ => rfl⟩
      simp only [tidy_layers]
      rw [if_neg h0]
      simp only [hsing', Bool.false_eq_true, if_false]

end DBSP

namespace DBSP

variable {K : Type} [LinearOrder K] {R : Type} [AddCommGroup R] [DecidableEq R]

theorem option_some_bind {α β : Type} (a : α) (f : α → Option β) :
    (some a >>= f) = f a := rfl

/-- `introduce_batch` from a state satisfying the spine invariant:
no panic, the invariant is re-established, and the Z-set grows by the
introduced batch. -/
theorem introduce_batch_spec (s : Spine K R) (batch : Option (List (K × R)))
    (bi : Nat) (hInv : Inv1 s.merging) :
    ∃ s', introduce_batch s batch bi = some s' ∧ Inv1 s'.merging ∧
      (∀ k, zsumSpine s'.merging k = zsumSpine s.merging k + optZ batch k) := by
  obtain ⟨m1, haf, hnd1, hz1⟩ :=
    apply_fuel_spec (asIsize ((8 <<< bi) * s.effort)) s.merging hInv
  obtain ⟨m2, hru, hvac2, hnd2i, hnd2a, hcond2, hz2⟩ :=
    roll_up_spec m1 bi (fun j => hnd1 j)
  obtain ⟨m3, hins, hins_other, hins_shape, hins_zsum⟩ :=
    insert_at_spec m2 batch bi hnd2i
  have hInv3 : Inv1 m3 := by
    intro k hk
    rcases lt_trichotomy k bi with hkb | hkb | hkb
    · rw [hins_other _ (by omega), hvac2 k hkb] at hk
      cases hk
    · subst hkb
      have hz0 : smallerW m3 k = 0 :=
        smallerW_eq_zero m3 k (fun j hj => by
          rw [hins_other _ (by omega)]
          exact hvac2 j hj)
      rw [hz0]
      exact Nat.zero_le _
    · have hsplit : k = bi + 1 ∨ bi + 1 < k := by omega
      rcases hsplit with hk1 | hk1
      · subst hk1
        rw [hins_other _ (by omega)] at hk
        have hv := hcond2 hk
        have hm3bi : getSlot m3 bi = .Single batch := by
          rcases hins_shape with ⟨_, hres⟩ | ⟨old, hold, hres⟩
          · exact hres
          · rw [hv] at hold
            cases hold
        have hsm : smallerW m3 (bi + 1) = 2 ^ bi := by
          rw [smallerW_succ,
            smallerW_eq_zero m3 bi (fun j hj => by
              rw [hins_other _ (by omega)]
              exact hvac2 j hj),
            hm3bi, wt_single]
          omega
        rw [hsm]
        have hidx : bi + 1 - 1 = bi := by omega
        rw [hidx]
      · rw [hins_other _ (by omega), hnd2a k hk1] at hk
        cases hk
  obtain ⟨m4, htl, hInv4, hz4⟩ := tidy_layers_spec m3 hInv3
  refine ⟨{ s with merging := m4 }, ?_, hInv4, ?_⟩
  · simp only [introduce_batch]
    rw [haf, option_some_bind, hru, option_some_bind, hins, option_some_bind,
      htl, option_some_bind]
  · intro k
    rw [hz4 k, hins_zsum k, hz2 k, hz1 k]

/-- `Spine::insert` of a batch with distinct bounds: no panic, invariant
preserved, Z-set grows by the batch. -/
theorem spine_insert_spec (s : Spine K R) (b : SpineBatch K R)
    (hb : b.lower ≠ b.upper) (hInv : Inv1 s.merging) :
    ∃ s', Spine.insert s b = some s' ∧ Inv1 s'.merging ∧
      (∀ k, zsumSpine s'.merging k =
        zsumSpine s.merging k + zOf b.data k) := by
  by_cases he : b.data.length = 0
  · refine ⟨s, ?_, hInv, ?_⟩
    · rw [Spine.insert, if_neg hb, if_pos he]
    · intro k
      have hnil : b.data = [] := List.length_eq_zero.mp he
      rw [hnil, zOf_nil, add_zero]
  · obtain ⟨s', heq, hInv', hz⟩ :=
      introduce_batch_spec
        { s with
          dirty := true
          lower := acMeet s.lower b.lower
          upper := acJoin s.upper b.upper }
        (some b.data) (levelOf b.data.length) hInv
    refine ⟨s', ?_, hInv', ?_⟩
    · rw [Spine.insert, if_neg hb, if_neg he]
      exact heq
    · intro k
      exact hz k

/-- `Spine::exert`: no panic, invariant preserved, Z-set unchanged. -/
theorem spine_exert_spec (s : Spine K R) (fuel : Int)
    (hInv : Inv1 s.merging) :
    ∃ s', Spine.exert s fuel = some s' ∧ Inv1 s'.merging ∧
      (∀ k, zsumSpine s'.merging k = zsumSpine s.merging k) := by
  obtain ⟨m, htl, hInvm, hzm⟩ := tidy_layers_spec s.merging hInv
  by_cases hred : reduced m = true
  · refine ⟨{ s with merging := m }, ?_, hInvm, hzm⟩
    simp only [Spine.exert]
    rw [htl, option_some_bind]
    simp only [hred, if_true]
  · have hred' : reduced m = false := by
      cases hb : reduced m with
      | true => exact absurd hb hred
      | false => rfl
    by_cases hdb : m.any MergeState.isDouble = true
    · obtain ⟨m', haf, hnd', hz'⟩ := apply_fuel_spec fuel m hInvm
      refine ⟨{ s with merging := m' }, ?_, Inv1_of_noDoubles hnd', ?_⟩
      · simp only [Spine.exert]
        rw [htl, option_some_bind]
        simp only [hred', Bool.false_eq_true, if_false, hdb, if_true]
        rw [haf, option_some_bind]
      · intro k
        rw [hz' k, hzm k]
    · have hdb' : m.any MergeState.isDouble = false := by
        cases hb : m.any MergeState.isDouble with
        | true => exact absurd hb hdb
        | false => rfl
      obtain ⟨s', heq, hInv', hz'⟩ :=
        introduce_batch_spec { s with merging := m } none
          (levelOf (usizeOfIsize fuel)) hInvm
      refine ⟨s', ?_, hInv', ?_⟩
      · simp only [Spine.exert]
        rw [htl, option_some_bind]
        simp only [hred', Bool.false_eq_true, if_false, hdb']
        exact heq
      · intro k
        have h1 := hz' k
        rw [hzm k] at h1
        rw [h1]
        show zsumSpine s.merging k + 0 = zsumSpine s.merging k
        rw [add_zero]

theorem insertedZ_nil (k : K) : insertedZ ([] : List (SpineOp K R)) k = 0 := rfl

theorem insertedZ_cons (op : SpineOp K R) (rest : List (SpineOp K R)) (k : K) :
    insertedZ (op :: rest) k =
      (match op with
        | .insert b => zOf b.data k
        | .exert _ => 0) + insertedZ rest k := by
  simp [insertedZ]

/-- Folding a list of public operations over any invariant-satisfying
state: no panic, invariant preserved, and the Z-set grows by exactly the
inserted batches. -/
theorem runOps_go_spec (ops : List (SpineOp K R)) :
    ∀ s : Spine K R, Inv1 s.merging →
      (∀ b, SpineOp.insert b ∈ ops → b.lower ≠ b.upper) →
      ∃ st, ops.foldlM applyOp s = some st ∧ Inv1 st.merging ∧
        (∀ k, zsumSpine st.merging k =
          zsumSpine s.merging k + insertedZ ops k) := by
  induction ops with
  | nil =>
    intro s h _
    refine ⟨s, rfl, h, ?_⟩
    intro k
    rw [insertedZ_nil, add_zero]
  | cons op rest ih =>
    intro s hInv hb
    cases op with
    | insert b =>
      have hbb : b.lower ≠ b.upper := hb b (List.mem_cons_self _ _)
      obtain ⟨s1, heq, hInv1, hz1⟩ := spine_insert_spec s b hbb hInv
      obtain ⟨st, heqr, hInvr, hzr⟩ := ih s1 hInv1
        (fun b' hb' => hb b' (List.mem_cons_of_mem _ hb'))
      refine ⟨st, ?_, hInvr, ?_⟩
      · rw [List.foldlM_cons]
        show (Spine.insert s b >>= fun s1 => rest.foldlM applyOp s1) = some st
        rw [heq, option_some_bind]
        exact heqr
      · intro k
        rw [hzr k, hz1 k, insertedZ_cons]
        abel
    | exert f =>
      obtain ⟨s1, heq, hInv1, hz1⟩ := spine_exert_spec s f hInv
      obtain ⟨st, heqr, hInvr, hzr⟩ := ih s1 hInv1
        (fun b' hb' => hb b' (List.mem_cons_of_mem _ hb'))
      refine ⟨st, ?_, hInvr, ?_⟩
      · rw [List.foldlM_cons]
        show (Spine.exert s f >>= fun s1 => rest.foldlM applyOp s1) = some st
        rw [heq, option_some_bind]
        exact heqr
      · intro k
        rw [hzr k, hz1 k, insertedZ_cons]
        show zsumSpine s.merging k + insertedZ rest k =
          zsumSpine s.merging k + (0 + insertedZ rest k)
        rw [zero_add]

theorem Inv1_new : Inv1 ((Spine.new : Spine K R).merging) := by
  intro k hk
  rw [getSlot_out _ _ (by simp [Spine.new, Spine.with_effort])] at hk
  cases hk

/-- Running any sequence of public operations (with well-formed batch
bounds) from a fresh spine: no panic, invariant holds, and the spine's
Z-set equals the sum of the inserted batches. -/
theorem runOps_spec (ops : List (SpineOp K R))
    (hb : ∀ b, SpineOp.insert b ∈ ops → b.lower ≠ b.upper) :
    ∃ st, runOps ops = some st ∧ Inv1 st.merging ∧
      (∀ k, zsumSpine st.merging k = insertedZ ops k) := by
  obtain ⟨st, heq, hInv, hz⟩ := runOps_go_spec ops Spine.new Inv1_new hb
  refine ⟨st, heq, hInv, ?_⟩
  intro k
  rw [hz k]
  show zsumSpine ([] : List (MergeState K R)) k + insertedZ ops k = _
  rw [show zsumSpine ([] : List (MergeState K R)) k = 0 from rfl, zero_add]

/-- The consolidate loop from an invariant state never panics, and if it
exits within its budget the exit state is reduced with the same Z-set. -/
theorem consolidateLoop_spec (n : Nat) :
    ∀ s : Spine K R, Inv1 s.merging →
      ∃ r, consolidateLoop n s = some r ∧
        ∀ s', r = some s' → Inv1 s'.merging ∧ reduced s'.merging = true ∧
          (∀ k, zsumSpine s'.merging k = zsumSpine s.merging k) := by
  induction n with
  | zero =>
    intro s hInv
    by_cases hred : reduced s.merging = true
    · refine ⟨some s, ?_, ?_⟩
      · rw [consolidateLoop, if_pos hred]
      · intro s' hs'
        injection hs' with hs'
        subst hs'
        exact ⟨hInv, hred, fun _ => rfl⟩
    · refine ⟨none, ?_, ?_⟩
      · rw [consolidateLoop, if_neg hred]
      · intro s' hs'
        cases hs'
  | succ n ih =>
    intro s hInv
    by_cases hred : reduced s.merging = true
    · refine ⟨some s, ?_, ?_⟩
      · rw [consolidateLoop, if_pos hred]
      · intro s' hs'
        injection hs' with hs'
        subst hs'
        exact ⟨hInv, hred, fun _ => rfl⟩
    · obtain ⟨s1, hex, hInv1, hz1⟩ := spine_exert_spec s isizeMax hInv
      obtain ⟨r, hr, hprop⟩ := ih s1 hInv1
      refine ⟨r, ?_, ?_⟩
      · rw [consolidateLoop, if_neg hred]
        simp only [hex]
        exact hr
      · intro s' hs'
        obtain ⟨h1, h2, h3⟩ := hprop s' hs'
        exact ⟨h1, h2, fun k => by rw [h3 k, hz1 k]⟩

theorem consolidateLoop_ne_none (n : Nat) (s : Spine K R)
    (hInv : Inv1 s.merging) : consolidateLoop n s ≠ none := by
  obtain ⟨r, hr, _⟩ := consolidateLoop_spec n s hInv
  rw [hr]
  simp

/-- **C3.**  Starting from a newly constructed spine, for every finite
sequence of the public operations `insert` and `exert` (on batches
passing the separate `lower != upper` assertion of `insert`, as every
batch constructor in the sources produces) followed by `consolidate`,
no internal `insert_at` ever targets a slot already holding a `Double`:
the "Attempted to insert batch into incomplete merge!" panic is
unreachable — `runOps` succeeds and the consolidate loop never panics,
however long it runs. -/
theorem claim_C3_insert_at_panic_unreachable (ops : List (SpineOp K R))
    (hb : ∀ b, SpineOp.insert b ∈ ops → b.lower ≠ b.upper) :
    ∃ st, runOps ops = some st ∧ ∀ n, consolidateLoop n st ≠ none := by
  obtain ⟨st, heq, hInv, _⟩ := runOps_spec ops hb
  exact ⟨st, heq, fun n => consolidateLoop_ne_none n st hInv⟩

/-- **C3, witness.**  A concrete three-operation trace. -/
theorem claim_C3_witness :
    ∃ st, runOps [SpineOp.insert ⟨[(1, 1)], true, false⟩,
        SpineOp.insert ⟨[(1, -1), (2, 1)], true, false⟩,
        SpineOp.exert (100 : Int)] = some (st : Spine Nat Int) ∧
      ∀ n, consolidateLoop n st ≠ none :=
  claim_C3_insert_at_panic_unreachable _ (by
    intro b hbmem
    simp only [List.mem_cons, List.not_mem_nil, or_false] at hbmem
    rcases hbmem with h | h | h
    · injection h with h'
      subst h'
      decide
    · injection h with h'
      subst h'
      decide
    · exact SpineOp.noConfusion h)

end DBSP

namespace DBSP

variable {K : Type} [LinearOrder K] {R : Type} [AddCommGroup R] [DecidableEq R]

theorem zslot_eq_zero_of_empty (s : MergeState K R) (k : K)
    (hnd : s.isDouble = false) (hlen : s.len = 0) : s.zslot k = 0 := by
  cases s with
  | Vacant => rfl
  | Single b =>
    cases b with
    | none => rfl
    | some l =>
      have : l = [] := List.length_eq_zero.mp hlen
      subst this
      show zOf ([] : List (K × R)) k = 0
      exact zOf_nil k
  | Double v => cases hnd

theorem zsumSpine_eq_zero_of_slots (m : List (MergeState K R)) (k : K)
    (h : ∀ x ∈ m, MergeState.zslot x k = 0) : zsumSpine m k = 0 := by
  induction m with
  | nil => rfl
  | cons y u ihu =>
    rw [zsumSpine_cons, h y (List.mem_cons_self _ _),
      ihu (fun x hx => h x (List.mem_cons_of_mem _ hx)), add_zero]

/-- On a reduced merging vector, the extraction at the end of
`consolidate` is exact: `None` is returned only when the whole vector
holds the zero Z-set, and an extracted batch carries exactly the
vector's Z-set. -/
theorem extract_of_reduced (m : List (MergeState K R))
    (hred : reduced m = true) :
    (extractBatch m = none → ∀ k, zsumSpine m k = 0) ∧
    (∀ b, extractBatch m = some b → ∀ k, zOf b k = zsumSpine m k) := by
  simp only [reduced, Bool.and_eq_true, Bool.not_eq_true', List.any_eq_false,
    Bool.not_eq_true, decide_eq_true_eq] at hred
  obtain ⟨hnd, hcnt⟩ := hred
  induction m with
  | nil =>
    constructor
    · intro _ k
      rfl
    · intro b hb
      cases hb
  | cons s t ih =>
    have hnds : s.isDouble = false := hnd s (List.mem_cons_self _ _)
    have hndt : ∀ x ∈ t, x.isDouble = false :=
      fun x hx => hnd x (List.mem_cons_of_mem _ hx)
    by_cases hs : ∃ b, s = MergeState.Single (some b) ∧ b.length ≠ 0
    · obtain ⟨b, hsb, hblen⟩ := hs
      subst hsb
      have hbne : b ≠ [] := fun hc => hblen (by rw [hc]; rfl)
      have hext : extractBatch (MergeState.Single (some b) :: t) = some b := by
        simp [extractBatch, List.findSome?_cons, hbne]
      have hcnt_t : t.countP (fun s => decide (0 < s.len)) = 0 := by
        rw [List.countP_cons] at hcnt
        have hlen' : 0 < (MergeState.Single (some b)).len := by
          show 0 < b.length
          omega
        rw [decide_eq_true hlen', if_pos rfl] at hcnt
        omega
      have hzt : ∀ k, zsumSpine t k = 0 := by
        intro k
        have hall := List.countP_eq_zero.mp hcnt_t
        refine zsumSpine_eq_zero_of_slots t k ?_
        intro x hx
        refine zslot_eq_zero_of_empty x k (hndt x hx) ?_
        have := hall x hx
        simp only [decide_eq_true_eq] at this
        omega
      constructor
      · intro hc
        rw [hext] at hc
        cases hc
      · intro b' hb' k
        rw [hext] at hb'
        injection hb' with hb'
        subst hb'
        rw [zsumSpine_cons, zslot_single, hzt k]
        show zOf b k = zOf b k + 0
        rw [add_zero]
    · -- the head holds no updates: it contributes nothing and the scan
      -- continues in the tail
      push_neg at hs
      have hzs : ∀ k, s.zslot k = 0 := by
        intro k
        cases s with
        | Vacant => rfl
        | Single b =>
          cases b with
          | none => rfl
          | some l =>
            have hlen : l.length = 0 := hs l rfl
            have : l = [] := List.length_eq_zero.mp hlen
            subst this
            exact zOf_nil k
        | Double v => cases hnds
      have hext : extractBatch (s :: t) = extractBatch t := by
        simp only [extractBatch, List.findSome?_cons]
        cases s with
        | Vacant => rfl
        | Single b =>
          cases b with
          | none => rfl
          | some l =>
            have hlen : l.length = 0 := hs l rfl
            simp [extractBatch, List.findSome?_cons, hlen]
        | Double v => cases hnds
      have hcnt_t : t.countP (fun s => decide (0 < s.len)) ≤ 1 := by
        rw [List.countP_cons] at hcnt
        omega
      obtain ⟨ih1, ih2⟩ := ih hndt hcnt_t
      constructor
      · intro hc k
        rw [zsumSpine_cons, hzs k, zero_add]
        rw [hext] at hc
        exact ih1 hc k
      · intro b' hb' k
        rw [hext] at hb'
        rw [zsumSpine_cons, hzs k, zero_add]
        exact ih2 b' hb' k

/-- Partial correctness of `Spine::consolidate` after an arbitrary
sequence of public operations: the operations and the consolidate loop
never panic, and whenever the loop exits (within any budget), the
extracted result is `None` exactly on the zero Z-set and otherwise a
batch whose Z-set is the sum of all inserted batches. -/
theorem consolidate_value_correct (ops : List (SpineOp K R))
    (hb : ∀ b, SpineOp.insert b ∈ ops → b.lower ≠ b.upper) :
    ∃ st, runOps ops = some st ∧
      (∀ n, consolidateLoop n st ≠ none) ∧
      (∀ n r, consolidateLoop n st = some (some r) →
        (extractBatch r.merging = none → ∀ k, insertedZ ops k = 0) ∧
        (∀ b, extractBatch r.merging = some b →
          ∀ k, zOf b k = insertedZ ops k)) := by
  obtain ⟨st, heq, hInv, hz⟩ := runOps_spec ops hb
  refine ⟨st, heq, fun n => consolidateLoop_ne_none n st hInv, ?_⟩
  intro n r hr
  obtain ⟨r', hr', hprop⟩ := consolidateLoop_spec n st hInv
  rw [hr] at hr'
  injection hr'.symm with hr''
  obtain ⟨hInvr, hredr, hzr⟩ := hprop r hr''
  obtain ⟨hnone, hsome⟩ := extract_of_reduced r.merging hredr
  constructor
  · intro hc k
    rw [← hz k, ← hzr k]
    exact hnone hc k
  · intro b hbe k
    rw [← hz k, ← hzr k]
    exact hsome b hbe k

end DBSP
